import Mathlib

/-!
Shallow embedding of the multiplicative-subgroup generator (src/main.rs).

Machine integers (`u64`) are modelled as `ℕ` with an explicit `% 2 ^ 64`
wherever the source multiplies two `u64` values, so overflow behaviour is
preserved.  The two sources of randomness (Miller–Rabin witnesses drawn by
`rng.gen_range(2..n - 2)` and primitive-root candidates drawn by
`rng.gen_range(2..p - 1)`) are modelled as oracle streams `w c : ℕ → ℕ`;
the range contract of `gen_range` becomes a side condition
(`validWitnesses`, `validCandidates`).  The iteration order of the
`HashSet` that `Vec::from_iter` consumes is modelled by a parameter
`ord : List ℕ → List ℕ` constrained to permute its input (`validOrd`).
Rust panics (division by zero, empty `gen_range`, `unwrap()` of `None`)
are explicit `RunResult` constructors.
-/

set_option maxHeartbeats 4000000

namespace MulSub

/-- `mod_exp`'s loop (src/main.rs lines 10-16).  `result` and `a` are the
mutable locals; each `u64` product is wrapped modulo `2 ^ 64` before the
`% n`, exactly as the machine multiplication does. -/
def modExpGo (a s n result : ℕ) : ℕ :=
  if s = 0 then result
  else
    modExpGo ((a * a) % 2 ^ 64 % n) (s / 2) n
      (if s % 2 = 1 then (result * a) % 2 ^ 64 % n else result)
termination_by s
decreasing_by exact Nat.div_lt_self (Nat.pos_of_ne_zero (by assumption)) (by norm_num)

/-- `mod_exp(a, s, n)` from src/main.rs lines 7-18: `result = 1; a %= n;`
then the square-and-multiply loop. -/
def mod_exp (a s n : ℕ) : ℕ := modExpGo (a % n) s n 1

/-- The `while s % 2 == 0 { r += 1; s /= 2 }` decomposition in `is_prime`
(src/main.rs lines 28-33), returning `(r, s)`.  The source only runs it on
`s = n - 1 > 0`; the `s ≠ 0` guard makes the recursion terminating without
changing any reachable value. -/
def splitTwos (s r : ℕ) : ℕ × ℕ :=
  if s % 2 = 0 ∧ s ≠ 0 then splitTwos (s / 2) (r + 1) else (r, s)
termination_by s
decreasing_by
  exact Nat.div_lt_self (Nat.pos_of_ne_zero (by omega)) (by norm_num)

/-- The inner `for _ in 0..r - 1` squaring loop of one Miller–Rabin round
(src/main.rs lines 43-49), returning the final value of `is_composite`.
`count` is the number of iterations of the range `0..r - 1`; since the
source's `r` is an `i32`, that is `r - 1` when `r ≥ 1` and `0` when
`r = 0` (the range `0..-1` is empty), which is exactly `ℕ` truncated
subtraction applied to `r`. -/
def squareRounds (n : ℕ) : ℕ → ℕ → Bool
  | _, 0 => true
  | x, count + 1 =>
    let y := mod_exp x 2 n
    if y = n - 1 then false else squareRounds n y count

/-- The witness loop `for _ in 0..k` of `is_prime` (src/main.rs lines
36-53); `w i` is the witness the RNG returns in round `i`. -/
def roundsFrom (n s r : ℕ) (w : ℕ → ℕ) : ℕ → ℕ → Bool
  | _, 0 => true
  | i, k + 1 =>
    let x := mod_exp (w i) s n
    if x = 1 ∨ x = n - 1 then roundsFrom n s r w (i + 1) k
    else if squareRounds n x (r - 1) then false
    else roundsFrom n s r w (i + 1) k

/-- `is_prime(n, k)` from src/main.rs lines 20-55, with the RNG replaced
by the witness stream `w`. -/
def is_prime (n k : ℕ) (w : ℕ → ℕ) : Bool :=
  if n ≤ 1 ∨ n = 4 then false
  else if n ≤ 3 then true
  else
    let rs := splitTwos (n - 1) 0
    roundsFrom n rs.2 rs.1 w 0 k

/-- The set of values `rng.gen_range(2..n - 2)` can return (src/main.rs
line 37): the half-open Rust range `2..n - 2`. -/
def witnessRange (n : ℕ) : Finset ℕ := Finset.Ico 2 (n - 2)

/-- The witness stream only produces values `gen_range(2..n - 2)` can
produce. -/
def validWitnesses (n : ℕ) (w : ℕ → ℕ) : Prop := ∀ i, w i ∈ witnessRange n

/-- `factors(k)` from src/main.rs lines 60-68: all `i` in `1..=k` with
`k % i == 0`, in ascending order. -/
def factors (k : ℕ) : List ℕ := (List.range' 1 k).filter (fun i => k % i == 0)

/-- The `for f in factors` loop of `is_generator` (src/main.rs lines
161-165). -/
def genLoop (p g : ℕ) : List ℕ → Bool
  | [] => true
  | f :: fs => if mod_exp g ((p - 1) / f) p = 1 then false else genLoop p g fs

/-- `factors(p - 1)` after `factors.pop()` (drop the last element) and
`factors.remove(0)` (drop the first element), src/main.rs lines 154-158.
(`Vec::remove(0)` would panic on an empty vector, which can only happen
for `p ≤ 2`; every caller has `p ≥ 5`.) -/
def trimmedFactors (p : ℕ) : List ℕ := ((factors (p - 1)).dropLast).tail

/-- `is_generator(p, g)` from src/main.rs lines 153-167. -/
def is_generator (p g : ℕ) : Bool := genLoop p g (trimmedFactors p)

/-- The set of values `rng.gen_range(2..p - 1)` in `generate_candidate`
can return (src/main.rs line 150). -/
def candidateRange (p : ℕ) : Finset ℕ := Finset.Ico 2 (p - 1)

/-- The candidate stream only produces values `gen_range(2..p - 1)` can
produce. -/
def validCandidates (p : ℕ) (c : ℕ → ℕ) : Prop := ∀ i, c i ∈ candidateRange p

/-- The `g = generate_candidate(p); while !is_generator(p, g) { ... }`
search (src/main.rs lines 96-99); `c i` is the `i`-th candidate the RNG
returns, and `fuel` bounds how many candidates this model examines
(`none` stands for a run still searching after `fuel` draws). -/
def findGen (p : ℕ) (c : ℕ → ℕ) : ℕ → ℕ → Option ℕ
  | _, 0 => none
  | i, fuel + 1 => if is_generator p (c i) then some (c i) else findGen p c (i + 1) fuel

/-- The contents of the `HashSet` after the `subgroup.insert(..)` loop, as
a duplicate-free list in first-insertion order. -/
def insertAll (l : List ℕ) : List ℕ :=
  l.foldl (fun acc x => if x ∈ acc then acc else acc ++ [x]) []

/-- `subgroup.iter().position(|&x| x == 1)` (src/main.rs line 109). -/
def findPos : List ℕ → Option ℕ
  | [] => none
  | x :: xs => if x = 1 then some 0 else (findPos xs).map (· + 1)

/-- `subgroup.rotate_left(index)` (src/main.rs line 110). -/
def rotL (l : List ℕ) (i : ℕ) : List ℕ := l.drop i ++ l.take i

/-- The Rust panic sites reachable from `multiplicative_subgroup`:
`(p - 1) % n` with `n = 0`, `gen_range(2..p - 1)` with an empty range
(`p ≤ 3`), and `.unwrap()` of `position(..)` when `1` is absent. -/
inductive PanicKind : Type
  | divByZero : PanicKind
  | emptyRange : PanicKind
  | unwrapNone : PanicKind
deriving DecidableEq

/-- Outcome of one `multiplicative_subgroup` run: `Ok(vec)`, one of the
two error values, a panic, or `noFuel` when the generator search is still
running after `fuel` candidate draws. -/
inductive RunResult : Type
  | ok : List ℕ → RunResult
  | notPrime : RunResult
  | notFactor : RunResult
  | panic : PanicKind → RunResult
  | noFuel : RunResult
deriving DecidableEq

/-- `multiplicative_subgroup(p, n)` from src/main.rs lines 87-112, with
the witness stream `w`, the candidate stream `c`, the `HashSet` iteration
order `ord` and the search budget `fuel` made explicit. -/
def multiplicative_subgroup (p n : ℕ) (w c : ℕ → ℕ) (ord : List ℕ → List ℕ)
    (fuel : ℕ) : RunResult :=
  if is_prime p 5 w = false then .notPrime
  else if n = 0 then .panic .divByZero
  else if (p - 1) % n ≠ 0 then .notFactor
  else if p - 1 ≤ 2 then .panic .emptyRange
  else
    match findGen p c 0 fuel with
    | none => .noFuel
    | some g =>
      let powers := (List.range' 1 n).map (fun i => mod_exp g (i * ((p - 1) / n)) p)
      let elems := ord (insertAll powers)
      match findPos elems with
      | none => .panic .unwrapNone
      | some idx => .ok (rotL elems idx)

/-- `Vec::from_iter` over a `HashSet` yields the elements in some order:
`ord` must return a permutation of the inserted elements. -/
def validOrd (ord : List ℕ → List ℕ) : Prop := ∀ l, (ord l).Perm l

/-- Exact (non-wrapping) modular exponentiation, used as the mathematical
reference value `base ^ exponent mod modulus` in specifications. -/
def powModGo (a s n result : ℕ) : ℕ :=
  if s = 0 then result
  else powModGo (a * a % n) (s / 2) n (if s % 2 = 1 then result * a % n else result)
termination_by s
decreasing_by exact Nat.div_lt_self (Nat.pos_of_ne_zero (by assumption)) (by norm_num)

/-- Exact `a ^ s mod n` (see `powMod_eq`). -/
def powMod (a s n : ℕ) : ℕ := powModGo (a % n) s n (1 % n)

/-- `g` has multiplicative order `d` modulo `p`: `g ^ d ≡ 1 (mod p)` and
no smaller positive exponent reaches `1`. -/
def ordersTo (g p d : ℕ) : Prop :=
  g ^ d % p = 1 ∧ ∀ e, 0 < e → e < d → g ^ e % p ≠ 1

/-!  Kernel-evaluable doubles of the recursive definitions.  The source
functions recurse on `s / 2`, which Lean compiles by well-founded
recursion; the kernel cannot evaluate those, so each gets a structurally
recursive twin (recursion on an explicit counter that the original's
argument bounds) together with an equality theorem.  All concrete
evaluations go through these twins. -/

/-- Structural twin of `modExpGo`; the counter `fuel` only needs to
dominate `s`. -/
def modExpFuel : ℕ → ℕ → ℕ → ℕ → ℕ → ℕ
  | 0, _, _, _, r => r
  | fuel + 1, a, s, n, r =>
    if s = 0 then r
    else modExpFuel fuel ((a * a) % 2 ^ 64 % n) (s / 2) n
      (if s % 2 = 1 then (r * a) % 2 ^ 64 % n else r)

theorem modExpGo_eq_fuel :
    ∀ fuel a s n r, s ≤ fuel → modExpGo a s n r = modExpFuel fuel a s n r := by
  intro fuel
  induction fuel with
  | zero =>
    intro a s n r h
    replace h : s = 0 := Nat.le_zero.mp h
    subst h
    rw [modExpGo]
    simp [modExpFuel]
  | succ f ih =>
    intro a s n r h
    rw [modExpGo, modExpFuel]
    by_cases hs : s = 0
    · simp [hs]
    · simp only [hs, if_false]
      exact ih _ _ _ _ (by omega)

/-- Kernel-evaluable form of `mod_exp`. -/
theorem mod_exp_eval (a s n : ℕ) : mod_exp a s n = modExpFuel s (a % n) s n 1 :=
  modExpGo_eq_fuel s (a % n) s n 1 le_rfl

/-- Structural twin of `splitTwos`. -/
def splitTwosFuel : ℕ → ℕ → ℕ → ℕ × ℕ
  | 0, s, r => (r, s)
  | fuel + 1, s, r =>
    if s % 2 = 0 ∧ s ≠ 0 then splitTwosFuel fuel (s / 2) (r + 1) else (r, s)

theorem splitTwos_eq_fuel :
    ∀ fuel s r, s ≤ fuel → splitTwos s r = splitTwosFuel fuel s r := by
  intro fuel
  induction fuel with
  | zero =>
    intro s r h
    replace h : s = 0 := Nat.le_zero.mp h
    subst h
    rw [splitTwos]
    simp [splitTwosFuel]
  | succ f ih =>
    intro s r h
    rw [splitTwos, splitTwosFuel]
    by_cases hs : s % 2 = 0 ∧ s ≠ 0
    · rw [if_pos hs, if_pos hs]
      exact ih (s / 2) (r + 1) (by obtain ⟨h1, h2⟩ := hs; omega)
    · rw [if_neg hs, if_neg hs]

theorem splitTwos_eval (s r : ℕ) : splitTwos s r = splitTwosFuel s s r :=
  splitTwos_eq_fuel s s r le_rfl

/-- `squareRounds` with `mod_exp` replaced by its evaluable form. -/
def squareRoundsE (n : ℕ) : ℕ → ℕ → Bool
  | _, 0 => true
  | x, count + 1 =>
    let y := modExpFuel 2 (x % n) 2 n 1
    if y = n - 1 then false else squareRoundsE n y count

theorem squareRounds_eq_E : ∀ count x n, squareRounds n x count = squareRoundsE n x count := by
  intro count
  induction count with
  | zero => intro x n; rfl
  | succ c ih =>
    intro x n
    rw [squareRounds, squareRoundsE]
    simp only [mod_exp_eval]
    split
    · rfl
    · exact ih _ _

/-- `roundsFrom` with evaluable subcalls. -/
def roundsFromE (n s r : ℕ) (w : ℕ → ℕ) : ℕ → ℕ → Bool
  | _, 0 => true
  | i, k + 1 =>
    let x := modExpFuel s (w i % n) s n 1
    if x = 1 ∨ x = n - 1 then roundsFromE n s r w (i + 1) k
    else if squareRoundsE n x (r - 1) then false
    else roundsFromE n s r w (i + 1) k

theorem roundsFrom_eq_E :
    ∀ k n s r w i, roundsFrom n s r w i k = roundsFromE n s r w i k := by
  intro k
  induction k with
  | zero => intro n s r w i; rfl
  | succ k ih =>
    intro n s r w i
    rw [roundsFrom, roundsFromE]
    simp only [mod_exp_eval, squareRounds_eq_E]
    split
    · exact ih _ _ _ _ _
    · split
      · rfl
      · exact ih _ _ _ _ _

/-- `is_prime` with evaluable subcalls. -/
def is_primeE (n k : ℕ) (w : ℕ → ℕ) : Bool :=
  if n ≤ 1 ∨ n = 4 then false
  else if n ≤ 3 then true
  else
    let rs := splitTwosFuel (n - 1) (n - 1) 0
    roundsFromE n rs.2 rs.1 w 0 k

theorem is_prime_eq_E (n k : ℕ) (w : ℕ → ℕ) : is_prime n k w = is_primeE n k w := by
  rw [is_prime, is_primeE]
  simp only [splitTwos_eval, roundsFrom_eq_E]

/-- `genLoop` with evaluable subcalls. -/
def genLoopE (p g : ℕ) : List ℕ → Bool
  | [] => true
  | f :: fs =>
    if modExpFuel ((p - 1) / f) (g % p) ((p - 1) / f) p 1 = 1 then false
    else genLoopE p g fs

theorem genLoop_eq_E : ∀ l p g, genLoop p g l = genLoopE p g l := by
  intro l
  induction l with
  | nil => intro p g; rfl
  | cons f fs ih =>
    intro p g
    rw [genLoop, genLoopE]
    simp only [mod_exp_eval]
    split
    · rfl
    · exact ih _ _

/-- `is_generator` with an evaluable loop (the divisor list itself is
computed by `trimmedFactors`, which the kernel can evaluate whenever
`p - 1` is small). -/
theorem is_generator_eq_E (p g : ℕ) :
    is_generator p g = genLoopE p g (trimmedFactors p) := by
  rw [is_generator, genLoop_eq_E]

/-- Evaluable form of `powModGo`. -/
def powModFuel : ℕ → ℕ → ℕ → ℕ → ℕ → ℕ
  | 0, _, _, _, r => r
  | fuel + 1, a, s, n, r =>
    if s = 0 then r
    else powModFuel fuel (a * a % n) (s / 2) n (if s % 2 = 1 then r * a % n else r)

theorem powModGo_eq_fuel :
    ∀ fuel a s n r, s ≤ fuel → powModGo a s n r = powModFuel fuel a s n r := by
  intro fuel
  induction fuel with
  | zero =>
    intro a s n r h
    replace h : s = 0 := Nat.le_zero.mp h
    subst h
    rw [powModGo]
    simp [powModFuel]
  | succ f ih =>
    intro a s n r h
    rw [powModGo, powModFuel]
    by_cases hs : s = 0
    · simp [hs]
    · simp only [hs, if_false]
      exact ih _ _ _ _ (by omega)

theorem powMod_eval (a s n : ℕ) : powMod a s n = powModFuel s (a % n) s n (1 % n) :=
  powModGo_eq_fuel s (a % n) s n (1 % n) le_rfl

/-!  Exactness: for moduli `n ≤ 2 ^ 32` both factors of every product in
`mod_exp` are below `2 ^ 32`, so the `% 2 ^ 64` wrap never fires and the
loop computes the true modular power.  (`powModGo` computes it for every
positive modulus.) -/

theorem modExpGo_exact (n : ℕ) (h2 : 2 ≤ n) (hn : n ≤ 2 ^ 32) :
    ∀ s a res, a < n → res < n → modExpGo a s n res = res * a ^ s % n := by
  intro s
  induction s using Nat.strong_induction_on with
  | _ s ih =>
    intro a res ha hres
    rw [modExpGo]
    by_cases hs : s = 0
    · subst hs
      simp [Nat.mod_eq_of_lt hres]
    · simp only [hs, if_false]
      have hn0 : 0 < n := by omega
      have haa : a * a < 2 ^ 64 := by
        calc a * a ≤ (2 ^ 32 - 1) * (2 ^ 32 - 1) :=
              Nat.mul_le_mul (by omega) (by omega)
        _ < 2 ^ 64 := by norm_num
      have hra : res * a < 2 ^ 64 := by
        calc res * a ≤ (2 ^ 32 - 1) * (2 ^ 32 - 1) :=
              Nat.mul_le_mul (by omega) (by omega)
        _ < 2 ^ 64 := by norm_num
      rw [Nat.mod_eq_of_lt haa]
      have ha2 : a * a % n < n := Nat.mod_lt _ hn0
      have hsplit : s = 2 * (s / 2) + s % 2 := by omega
      by_cases hodd : s % 2 = 1
      · rw [if_pos hodd, Nat.mod_eq_of_lt hra]
        have hres2 : res * a % n < n := Nat.mod_lt _ hn0
        rw [ih (s / 2) (by omega) _ _ ha2 hres2]
        have hcong : res * a % n * (a * a % n) ^ (s / 2) ≡
            res * a * (a * a) ^ (s / 2) [MOD n] :=
          Nat.ModEq.mul (Nat.mod_modEq _ _) ((Nat.mod_modEq _ _).pow _)
        rw [Nat.ModEq] at hcong
        rw [hcong]
        congr 1
        conv_rhs => rw [hsplit, hodd]
        rw [pow_succ, pow_mul]
        ring
      · rw [if_neg hodd]
        rw [ih (s / 2) (by omega) _ _ ha2 hres]
        have hcong : res * (a * a % n) ^ (s / 2) ≡
            res * (a * a) ^ (s / 2) [MOD n] :=
          Nat.ModEq.mul Nat.ModEq.rfl ((Nat.mod_modEq _ _).pow _)
        rw [Nat.ModEq] at hcong
        rw [hcong]
        congr 1
        have hev : s % 2 = 0 := by omega
        conv_rhs => rw [hsplit, hev]
        rw [add_zero, pow_mul]
        ring

/-- For moduli `2 ≤ n ≤ 2 ^ 32` the source's `mod_exp` computes the exact
modular power. -/
theorem mod_exp_exact (a s n : ℕ) (h2 : 2 ≤ n) (hn : n ≤ 2 ^ 32) :
    mod_exp a s n = a ^ s % n := by
  rw [mod_exp, modExpGo_exact n h2 hn s (a % n) 1 (Nat.mod_lt _ (by omega)) (by omega)]
  rw [one_mul, ← Nat.pow_mod]

theorem powModGo_exact (n : ℕ) (hn : 0 < n) :
    ∀ s a res, a < n → res < n → powModGo a s n res = res * a ^ s % n := by
  intro s
  induction s using Nat.strong_induction_on with
  | _ s ih =>
    intro a res ha hres
    rw [powModGo]
    by_cases hs : s = 0
    · subst hs
      simp [Nat.mod_eq_of_lt hres]
    · simp only [hs, if_false]
      have ha2 : a * a % n < n := Nat.mod_lt _ hn
      have hsplit : s = 2 * (s / 2) + s % 2 := by omega
      by_cases hodd : s % 2 = 1
      · rw [if_pos hodd]
        have hres2 : res * a % n < n := Nat.mod_lt _ hn
        rw [ih (s / 2) (by omega) _ _ ha2 hres2]
        have hcong : res * a % n * (a * a % n) ^ (s / 2) ≡
            res * a * (a * a) ^ (s / 2) [MOD n] :=
          Nat.ModEq.mul (Nat.mod_modEq _ _) ((Nat.mod_modEq _ _).pow _)
        rw [Nat.ModEq] at hcong
        rw [hcong]
        congr 1
        conv_rhs => rw [hsplit, hodd]
        rw [pow_succ, pow_mul]
        ring
      · rw [if_neg hodd]
        rw [ih (s / 2) (by omega) _ _ ha2 hres]
        have hcong : res * (a * a % n) ^ (s / 2) ≡
            res * (a * a) ^ (s / 2) [MOD n] :=
          Nat.ModEq.mul Nat.ModEq.rfl ((Nat.mod_modEq _ _).pow _)
        rw [Nat.ModEq] at hcong
        rw [hcong]
        congr 1
        have hev : s % 2 = 0 := by omega
        conv_rhs => rw [hsplit, hev]
        rw [add_zero, pow_mul]
        ring

/-- `powMod` computes the exact modular power for every positive
modulus. -/
theorem powMod_exact (a s n : ℕ) (hn : 0 < n) : powMod a s n = a ^ s % n := by
  rw [powMod, powModGo_exact n hn s (a % n) (1 % n) (Nat.mod_lt _ hn) (Nat.mod_lt _ hn)]
  have hcong : 1 % n * (a % n) ^ s ≡ 1 * a ^ s [MOD n] :=
    Nat.ModEq.mul (Nat.mod_modEq _ _) ((Nat.mod_modEq _ _).pow _)
  rw [Nat.ModEq] at hcong
  rw [hcong, one_mul]

/-!  The `2 ^ r * s` decomposition computed by the `while s % 2 == 0`
loop. -/

theorem splitTwos_spec :
    ∀ s r, 0 < s →
      (splitTwos s r).2 % 2 = 1 ∧
        2 ^ (splitTwos s r).1 * (splitTwos s r).2 = 2 ^ r * s ∧
        r ≤ (splitTwos s r).1 := by
  intro s
  induction s using Nat.strong_induction_on with
  | _ s ih =>
    intro r hs
    rw [splitTwos]
    by_cases h : s % 2 = 0 ∧ s ≠ 0
    · rw [if_pos h]
      obtain ⟨h1, h2⟩ := h
      have hpos : 0 < s / 2 := by omega
      obtain ⟨ho, he, hr⟩ := ih (s / 2) (by omega) (r + 1) hpos
      refine ⟨ho, ?_, by omega⟩
      rw [he, pow_succ]
      have h2s : 2 * (s / 2) = s := by omega
      calc 2 ^ r * 2 * (s / 2) = 2 ^ r * (2 * (s / 2)) := by ring
      _ = 2 ^ r * s := by rw [h2s]
    · rw [if_neg h]
      exact ⟨by omega, rfl, le_rfl⟩

/-- On an even positive input the loop runs at least once. -/
theorem splitTwos_pos (s : ℕ) (hs : 0 < s) (he : s % 2 = 0) :
    1 ≤ (splitTwos s 0).1 := by
  rw [splitTwos, if_pos ⟨he, by omega⟩]
  exact (splitTwos_spec (s / 2) 1 (by omega)).2.2

/-- On an odd input the loop does not run: `r = 0` and `s` is returned
unchanged. -/
theorem splitTwos_odd (s r : ℕ) (h : s % 2 = 1) : splitTwos s r = (r, s) := by
  rw [splitTwos, if_neg (by omega)]

/-!  `factors` produces exactly the divisors, in ascending order. -/

theorem mem_factors_iff (k x : ℕ) : x ∈ factors k ↔ 1 ≤ x ∧ x ≤ k ∧ x ∣ k := by
  rw [factors, List.mem_filter, List.mem_range'_1]
  constructor
  · rintro ⟨⟨hx1, hx2⟩, hbeq⟩
    refine ⟨hx1, by omega, ?_⟩
    rw [Nat.dvd_iff_mod_eq_zero]
    exact Nat.beq_eq_true_eq _ _ ▸ hbeq
  · rintro ⟨hx1, hx2, hdvd⟩
    refine ⟨⟨hx1, by omega⟩, ?_⟩
    rw [Nat.beq_eq_true_eq]
    exact Nat.dvd_iff_mod_eq_zero.mp hdvd

theorem factors_pairwise (k : ℕ) : (factors k).Pairwise (· < ·) :=
  (List.pairwise_lt_range' 1 k).filter _

/-- For `k ≥ 2`, `factors k` is `1`, then the divisors strictly between
`1` and `k` in ascending order, then `k`. -/
theorem factors_decomp (k : ℕ) (h2 : 2 ≤ k) :
    factors k =
      1 :: ((List.range' 2 (k - 2)).filter (fun i => k % i == 0) ++ [k]) := by
  rw [factors]
  have h1 : List.range' 1 k = 1 :: List.range' 2 (k - 1) := by
    conv_lhs => rw [show k = (k - 1) + 1 by omega]
    exact List.range'_succ 1 (k - 1) 1
  have h3 : List.range' 2 (k - 1) = List.range' 2 (k - 2) ++ [k] := by
    conv_lhs => rw [show k - 1 = (k - 2) + 1 by omega]
    rw [List.range'_1_concat]
    congr 1
    simp
    omega
  rw [h1, h3, List.filter_cons, List.filter_append]
  have hk1 : (k % 1 == 0) = true := by simp [Nat.mod_one]
  have hkk : (k % k == 0) = true := by simp [Nat.mod_self]
  rw [hk1]
  simp only [if_true, List.filter_cons, List.filter_nil, hkk]

/-- The trimmed divisor list used by `is_generator`: the divisors of
`p - 1` strictly between `1` and `p - 1`, ascending. -/
theorem trimmedFactors_decomp (p : ℕ) (h2 : 2 ≤ p - 1) :
    trimmedFactors p =
      (List.range' 2 (p - 1 - 2)).filter (fun i => (p - 1) % i == 0) := by
  rw [trimmedFactors, factors_decomp (p - 1) h2, ← List.cons_append,
    List.dropLast_concat, List.tail_cons]

theorem mem_trimmedFactors (p x : ℕ) (h2 : 2 ≤ p - 1) :
    x ∈ trimmedFactors p ↔ x ∣ (p - 1) ∧ 2 ≤ x ∧ x < p - 1 := by
  rw [trimmedFactors_decomp p h2, List.mem_filter, List.mem_range'_1]
  constructor
  · rintro ⟨⟨hx1, hx2⟩, hbeq⟩
    refine ⟨?_, hx1, by omega⟩
    rw [Nat.dvd_iff_mod_eq_zero]
    exact Nat.beq_eq_true_eq _ _ ▸ hbeq
  · rintro ⟨hdvd, hx1, hx2⟩
    refine ⟨⟨hx1, by omega⟩, ?_⟩
    rw [Nat.beq_eq_true_eq]
    exact Nat.dvd_iff_mod_eq_zero.mp hdvd

theorem trimmedFactors_pairwise (p : ℕ) (h2 : 2 ≤ p - 1) :
    (trimmedFactors p).Pairwise (· < ·) := by
  rw [trimmedFactors_decomp p h2]
  exact (List.pairwise_lt_range' 2 (p - 1 - 2)).filter _

/-!  The `is_generator` loop, characterised by list membership. -/

theorem genLoop_eq_true_iff (p g : ℕ) :
    ∀ l, genLoop p g l = true ↔ ∀ f ∈ l, mod_exp g ((p - 1) / f) p ≠ 1 := by
  intro l
  induction l with
  | nil => simp [genLoop]
  | cons f fs ih =>
    rw [genLoop]
    by_cases h : mod_exp g ((p - 1) / f) p = 1
    · simp [h]
    · simp [h, ih]

/-- `is_generator p g` is `true` exactly when no divisor `f` of `p - 1`
with `1 < f < p - 1` satisfies `mod_exp(g, (p-1)/f, p) = 1`.  This is the
loop of src/main.rs lines 161-165 over the popped-and-trimmed divisor
list. -/
theorem is_generator_true_iff (p g : ℕ) (h2 : 2 ≤ p - 1) :
    is_generator p g = true ↔
      ∀ f, f ∣ (p - 1) → 2 ≤ f → f < p - 1 → mod_exp g ((p - 1) / f) p ≠ 1 := by
  rw [is_generator, genLoop_eq_true_iff]
  constructor
  · intro h f hdvd hf2 hflt
    exact h f ((mem_trimmedFactors p f h2).mpr ⟨hdvd, hf2, hflt⟩)
  · intro h f hf
    obtain ⟨hdvd, hf2, hflt⟩ := (mem_trimmedFactors p f h2).mp hf
    exact h f hdvd hf2 hflt

/-!  Divisors of `2 * q` for odd prime `q`. -/

theorem dvd_two_mul_prime {q : ℕ} (hq : Nat.Prime q) (hodd : q % 2 = 1) :
    ∀ d, d ∣ 2 * q → d = 1 ∨ d = 2 ∨ d = q ∨ d = 2 * q := by
  intro d hd
  by_cases h2 : 2 ∣ d
  · obtain ⟨e, rfl⟩ := h2
    have he : e ∣ q := (Nat.mul_dvd_mul_iff_left (by norm_num : 0 < 2)).mp hd
    rcases (Nat.Prime.eq_one_or_self_of_dvd hq e he) with h | h
    · subst h; right; left; rfl
    · subst h; right; right; right; rfl
  · have hco : Nat.Coprime d 2 :=
      (Nat.coprime_comm.mp ((Nat.Prime.coprime_iff_not_dvd Nat.prime_two).mpr h2))
    have hdq : d ∣ q := by
      have : d ∣ q * 2 := by rwa [mul_comm] at hd
      exact (Nat.Coprime.dvd_of_dvd_mul_right hco this)
    rcases Nat.Prime.eq_one_or_self_of_dvd hq d hdq with h | h
    · left; exact h
    · right; right; left; exact h

/-- For a safe-prime-shaped modulus `p = 2q + 1` with `q` an odd prime,
the trimmed divisor list is exactly `[2, q]`. -/
theorem trimmedFactors_safe (q : ℕ) (hq : Nat.Prime q) (hodd : q % 2 = 1)
    (h5 : 5 ≤ q) : trimmedFactors (2 * q + 1) = [2, q] := by
  have h2 : 2 ≤ (2 * q + 1) - 1 := by omega
  have hk : (2 * q + 1) - 1 = 2 * q := by omega
  have hpw := trimmedFactors_pairwise (2 * q + 1) h2
  have hmem : ∀ x, x ∈ trimmedFactors (2 * q + 1) ↔ x = 2 ∨ x = q := by
    intro x
    rw [mem_trimmedFactors (2 * q + 1) x h2, hk]
    constructor
    · rintro ⟨hdvd, hx2, hxlt⟩
      rcases dvd_two_mul_prime hq hodd x hdvd with h | h | h | h
      · omega
      · left; exact h
      · right; exact h
      · omega
    · rintro (rfl | rfl)
      · exact ⟨⟨q, rfl⟩, le_rfl, by omega⟩
      · exact ⟨⟨2, by ring⟩, by omega, by omega⟩
  have hnd : (trimmedFactors (2 * q + 1)).Nodup :=
    hpw.imp (fun h => Nat.ne_of_lt h)
  have hnd2 : ([2, q] : List ℕ).Nodup := by
    simp [List.Nodup]
    omega
  have hperm : (trimmedFactors (2 * q + 1)).Perm [2, q] := by
    rw [List.perm_ext_iff_of_nodup hnd hnd2]
    intro a
    rw [hmem]
    simp
  refine List.eq_of_perm_of_sorted hperm hpw ?_
  simp [List.Sorted, List.Pairwise]
  omega

/-!  Casting bridge between `ℕ`-level modular powers and `ZMod`. -/

theorem zmod_pow_natCast (m a e : ℕ) (hm : 0 < m) :
    ((a : ℕ) : ZMod m) ^ e = ((powMod a e m : ℕ) : ZMod m) := by
  rw [powMod_exact a e m hm, ZMod.natCast_mod, Nat.cast_pow]

theorem zmod_natCast_eq_one (m v : ℕ) (h1 : 1 < m) (hv : v < m) :
    ((v : ℕ) : ZMod m) = 1 ↔ v = 1 := by
  haveI : NeZero m := ⟨by omega⟩
  haveI : Fact (1 < m) := ⟨h1⟩
  constructor
  · intro h
    have hval := congrArg ZMod.val h
    rwa [ZMod.val_natCast, ZMod.val_one, Nat.mod_eq_of_lt hv] at hval
  · intro h
    rw [h, Nat.cast_one]

theorem zmod_natCast_eq_iff (m v u : ℕ) (hv : v < m) (hu : u < m) :
    ((v : ℕ) : ZMod m) = ((u : ℕ) : ZMod m) ↔ v = u := by
  haveI : NeZero m := ⟨by omega⟩
  constructor
  · intro h
    have hval := congrArg ZMod.val h
    rwa [ZMod.val_natCast, ZMod.val_natCast, Nat.mod_eq_of_lt hv,
      Nat.mod_eq_of_lt hu] at hval
  · intro h
    rw [h]

/-!  Lucas primality certificates for the safe-prime pair
`Q = 2251816961 = 5 ⬝ 859 ⬝ 2 ^ 19 + 1` and `P = 2 ⬝ Q + 1 = 4503633923`,
used as a concrete modulus just above `2 ^ 32` where the `u64`
multiplications inside `mod_exp` overflow. -/

theorem prime_859 : Nat.Prime 859 := by norm_num

theorem prime_Q : Nat.Prime 2251816961 := by
  have h859 : Nat.Prime 859 := prime_859
  refine lucas_primality 2251816961 ((29 : ℕ) : ZMod 2251816961) ?_ ?_
  · have hval : powMod 29 2251816960 2251816961 = 1 := by
      rw [powMod_eval]
      decide
    have hz := zmod_pow_natCast 2251816961 29 2251816960 (by norm_num)
    rw [hval, Nat.cast_one] at hz
    simpa using hz
  · intro q hq hdvd
    have hddQ : q ∣ 2 ^ 19 * (5 * 859) := by
      have he : (2251816961 - 1 : ℕ) = 2 ^ 19 * (5 * 859) := by norm_num
      rwa [he] at hdvd
    have hq259 : q = 2 ∨ q = 5 ∨ q = 859 := by
      rcases (Nat.Prime.dvd_mul hq).mp hddQ with h | h
      · left
        exact (Nat.prime_dvd_prime_iff_eq hq Nat.prime_two).mp
          (Nat.Prime.dvd_of_dvd_pow hq h)
      · rcases (Nat.Prime.dvd_mul hq).mp h with h5 | h8
        · right; left
          exact (Nat.prime_dvd_prime_iff_eq hq (by norm_num)).mp h5
        · right; right
          exact (Nat.prime_dvd_prime_iff_eq hq h859).mp h8
    have hpos : (0 : ℕ) < 2251816961 := by norm_num
    rcases hq259 with rfl | rfl | rfl
    · have hval : powMod 29 1125908480 2251816961 = 2251816960 := by
        rw [powMod_eval]
        decide
      intro hcon
      rw [show (2251816961 - 1) / 2 = 1125908480 by norm_num,
        zmod_pow_natCast 2251816961 29 1125908480 hpos, hval] at hcon
      have := (zmod_natCast_eq_one 2251816961 2251816960 (by norm_num) (by norm_num)).mp hcon
      norm_num at this
    · have hval : powMod 29 450363392 2251816961 = 2037407958 := by
        rw [powMod_eval]
        decide
      intro hcon
      rw [show (2251816961 - 1) / 5 = 450363392 by norm_num,
        zmod_pow_natCast 2251816961 29 450363392 hpos, hval] at hcon
      have := (zmod_natCast_eq_one 2251816961 2037407958 (by norm_num) (by norm_num)).mp hcon
      norm_num at this
    · have hval : powMod 29 2621440 2251816961 = 2186911291 := by
        rw [powMod_eval]
        decide
      intro hcon
      rw [show (2251816961 - 1) / 859 = 2621440 by norm_num,
        zmod_pow_natCast 2251816961 29 2621440 hpos, hval] at hcon
      have := (zmod_natCast_eq_one 2251816961 2186911291 (by norm_num) (by norm_num)).mp hcon
      norm_num at this

theorem prime_P : Nat.Prime 4503633923 := by
  have hQ := prime_Q
  refine lucas_primality 4503633923 ((2 : ℕ) : ZMod 4503633923) ?_ ?_
  · have hval : powMod 2 4503633922 4503633923 = 1 := by
      rw [powMod_eval]
      decide
    have hz := zmod_pow_natCast 4503633923 2 4503633922 (by norm_num)
    rw [hval, Nat.cast_one] at hz
    simpa using hz
  · intro q hq hdvd
    have hddP : q ∣ 2 * 2251816961 := by
      have he : (4503633923 - 1 : ℕ) = 2 * 2251816961 := by norm_num
      rwa [he] at hdvd
    have hq2Q : q = 2 ∨ q = 2251816961 := by
      rcases (Nat.Prime.dvd_mul hq).mp hddP with h | h
      · left
        exact (Nat.prime_dvd_prime_iff_eq hq Nat.prime_two).mp h
      · right
        exact (Nat.prime_dvd_prime_iff_eq hq hQ).mp h
    have hpos : (0 : ℕ) < 4503633923 := by norm_num
    rcases hq2Q with rfl | rfl
    · have hval : powMod 2 2251816961 4503633923 = 4503633922 := by
        rw [powMod_eval]
        decide
      intro hcon
      rw [show (4503633923 - 1) / 2 = 2251816961 by norm_num,
        zmod_pow_natCast 4503633923 2 2251816961 hpos, hval] at hcon
      have := (zmod_natCast_eq_one 4503633923 4503633922 (by norm_num) (by norm_num)).mp hcon
      norm_num at this
    · have hval : powMod 2 2 4503633923 = 4 := by
        rw [powMod_eval]
        decide
      intro hcon
      rw [show (4503633923 - 1) / 2251816961 = 2 by norm_num,
        zmod_pow_natCast 4503633923 2 2 hpos, hval] at hcon
      have := (zmod_natCast_eq_one 4503633923 4 (by norm_num) (by norm_num)).mp hcon
      norm_num at this

/-!  Concrete facts at the overflow-regime modulus `P = 4503633923`. -/

theorem trimmedFactors_P : trimmedFactors 4503633923 = [2, 2251816961] := by
  have h := trimmedFactors_safe 2251816961 prime_Q (by norm_num) (by norm_num)
  norm_num at h
  exact h

/-- One unfolding step of the generator search. -/
theorem findGen_succ (p : ℕ) (c : ℕ → ℕ) (i fuel : ℕ) :
    findGen p c i (fuel + 1) =
      if is_generator p (c i) then some (c i) else findGen p c (i + 1) fuel := rfl

/-- The success path of `multiplicative_subgroup`: both validations pass,
the candidate search returns `g`, and the element `1` is found at
position `idx` of the iteration order. -/
theorem msub_ok (p n : ℕ) (w c : ℕ → ℕ) (ord : List ℕ → List ℕ) (fuel : ℕ)
    (g idx : ℕ)
    (hp : is_prime p 5 w = true) (hn : n ≠ 0) (hdvd : (p - 1) % n = 0)
    (hbig : ¬p - 1 ≤ 2) (hg : findGen p c 0 fuel = some g)
    (hpos : findPos
      (ord (insertAll ((List.range' 1 n).map
        (fun i => mod_exp g (i * ((p - 1) / n)) p)))) = some idx) :
    multiplicative_subgroup p n w c ord fuel =
      .ok (rotL (ord (insertAll ((List.range' 1 n).map
        (fun i => mod_exp g (i * ((p - 1) / n)) p)))) idx) := by
  rw [multiplicative_subgroup, hp]
  rw [if_neg (by simp : ¬(true = false))]
  rw [if_neg hn]
  rw [if_neg (by simp [hdvd] : ¬(p - 1) % n ≠ 0)]
  rw [if_neg hbig]
  simp only [hg, hpos]

theorem is_prime_P_seven : is_prime 4503633923 5 (fun _ => 7) = true := by
  rw [is_prime_eq_E]
  decide

theorem is_generator_P_188 : is_generator 4503633923 188 = true := by
  rw [is_generator, trimmedFactors_P, genLoop_eq_E]
  decide

theorem findGen_P_188 : findGen 4503633923 (fun _ => 188) 0 1 = some 188 := by
  simp [findGen_succ, is_generator_P_188]

theorem modexp_188_Q : mod_exp 188 2251816961 4503633923 = 3327351735 := by
  rw [mod_exp_eval]
  decide

theorem modexp_188_2Q : mod_exp 188 4503633922 4503633923 = 1 := by
  rw [mod_exp_eval]
  decide

/-- The list of powers the `for i in 1..=n` loop inserts in the run of
`multiplicative_subgroup(4503633923, 2)` with generator candidate `188`:
the `i = 1` power is corrupted by `u64` overflow (its exact value would be
`4503633922 = p - 1`), the `i = 2` power happens to evaluate exactly. -/
theorem powersList_P :
    (List.range' 1 2).map
        (fun i => mod_exp 188 (i * ((4503633923 - 1) / 2)) 4503633923) =
      [3327351735, 1] := by
  rw [show List.range' 1 2 = [1, 2] from rfl]
  simp only [List.map_cons, List.map_nil]
  rw [show (1 : ℕ) * ((4503633923 - 1) / 2) = 2251816961 by norm_num,
    show (2 : ℕ) * ((4503633923 - 1) / 2) = 4503633922 by norm_num,
    modexp_188_Q, modexp_188_2Q]

theorem C2_run :
    multiplicative_subgroup 4503633923 2 (fun _ => 7) (fun _ => 188) (fun l => l) 1
      = .ok [1, 3327351735] := by
  rw [msub_ok 4503633923 2 (fun _ => 7) (fun _ => 188) (fun l => l) 1 188 1
    is_prime_P_seven (by norm_num) (by norm_num) (by norm_num) findGen_P_188
    (by rw [powersList_P]; decide)]
  rw [powersList_P]
  decide

/-!  The three early-exit paths of `multiplicative_subgroup`. -/

theorem msub_notPrime (p n : ℕ) (w c : ℕ → ℕ) (ord : List ℕ → List ℕ) (fuel : ℕ)
    (h : is_prime p 5 w = false) :
    multiplicative_subgroup p n w c ord fuel = .notPrime := by
  rw [multiplicative_subgroup, h]
  simp

theorem msub_divZero (p : ℕ) (w c : ℕ → ℕ) (ord : List ℕ → List ℕ) (fuel : ℕ)
    (h : is_prime p 5 w = true) :
    multiplicative_subgroup p 0 w c ord fuel = .panic .divByZero := by
  rw [multiplicative_subgroup, h]
  simp

theorem msub_notFactor (p n : ℕ) (w c : ℕ → ℕ) (ord : List ℕ → List ℕ) (fuel : ℕ)
    (h : is_prime p 5 w = true) (hn : n ≠ 0) (hnd : (p - 1) % n ≠ 0) :
    multiplicative_subgroup p n w c ord fuel = .notFactor := by
  rw [multiplicative_subgroup, h]
  rw [if_neg (by simp : ¬(true = false))]
  rw [if_neg hn, if_pos hnd]

theorem msub_emptyRange (p n : ℕ) (w c : ℕ → ℕ) (ord : List ℕ → List ℕ) (fuel : ℕ)
    (h : is_prime p 5 w = true) (hn : n ≠ 0) (hdvd : (p - 1) % n = 0)
    (hsmall : p - 1 ≤ 2) :
    multiplicative_subgroup p n w c ord fuel = .panic .emptyRange := by
  rw [multiplicative_subgroup, h]
  rw [if_neg (by simp : ¬(true = false))]
  rw [if_neg hn]
  rw [if_neg (by simp [hdvd] : ¬(p - 1) % n ≠ 0)]
  rw [if_pos hsmall]

theorem msub_ne_notPrime (p n : ℕ) (w c : ℕ → ℕ) (ord : List ℕ → List ℕ)
    (fuel : ℕ) (h : is_prime p 5 w = true) :
    multiplicative_subgroup p n w c ord fuel ≠ .notPrime := by
  rw [multiplicative_subgroup, h]
  rw [if_neg (by simp : ¬(true = false))]
  split
  · simp
  · split
    · simp
    · split
      · simp
      · split
        · simp
        · simp only []
          split
          · simp
          · simp

/-!  `mod_exp` output range: the loop body always ends with `% n`, so the
result is `< n` whenever the loop multiplies at least once — which is
guaranteed for `s ≥ 1`.  Only `s = 0` returns the unreduced initial
`result = 1`, which escapes `[0, n)` exactly when `n = 1`. -/

theorem modExpGo_lt (n : ℕ) (hn : 1 ≤ n) :
    ∀ s a res, 1 ≤ s → modExpGo a s n res < n := by
  intro s
  induction s using Nat.strong_induction_on with
  | _ s ih =>
    intro a res hs
    rw [modExpGo]
    have hs0 : ¬s = 0 := by omega
    rw [if_neg hs0]
    by_cases h1 : s / 2 = 0
    · have hone : s = 1 := by omega
      subst hone
      norm_num
      rw [modExpGo]
      norm_num
      exact Nat.mod_lt _ (by omega)
    · exact ih (s / 2) (by omega) _ _ (by omega)

theorem mod_exp_zero_exponent (a m : ℕ) : mod_exp a 0 m = 1 := by
  rw [mod_exp, modExpGo]
  simp

theorem mod_exp_lt (a s m : ℕ) (hm : 1 ≤ m) (hs : 1 ≤ s) : mod_exp a s m < m := by
  rw [mod_exp]
  exact modExpGo_lt m hm s (a % m) 1 hs

theorem mod_exp_lt_of_two_le (a s m : ℕ) (hm : 2 ≤ m) : mod_exp a s m < m := by
  by_cases hs : s = 0
  · subst hs
    rw [mod_exp_zero_exponent]
    omega
  · exact mod_exp_lt a s m (by omega) (by omega)

/-!  Concrete runs at `p = 7` (the unique subgroup `{1, 2, 4}` of order
`3`, reached through generator candidate `3`) and at the Miller–Rabin
pseudoprime `2047 = 23 ⬝ 89`, which every witness equal to `2` fails to
expose. -/

theorem is_prime_7_two : is_prime 7 5 (fun _ => 2) = true := by
  rw [is_prime_eq_E]
  decide

theorem is_generator_7_3 : is_generator 7 3 = true := by
  rw [is_generator_eq_E]
  decide

theorem findGen_7_3 : findGen 7 (fun _ => 3) 0 1 = some 3 := by
  simp [findGen_succ, is_generator_7_3]

theorem powersList_7 :
    (List.range' 1 3).map (fun i => mod_exp 3 (i * ((7 - 1) / 3)) 7) =
      [2, 4, 1] := by
  rw [show List.range' 1 3 = [1, 2, 3] from rfl]
  simp only [List.map_cons, List.map_nil]
  rw [show (1 : ℕ) * ((7 - 1) / 3) = 2 by norm_num,
    show (2 : ℕ) * ((7 - 1) / 3) = 4 by norm_num,
    show (3 : ℕ) * ((7 - 1) / 3) = 6 by norm_num,
    show mod_exp 3 2 7 = 2 by rw [mod_exp_eval]; decide,
    show mod_exp 3 4 7 = 4 by rw [mod_exp_eval]; decide,
    show mod_exp 3 6 7 = 1 by rw [mod_exp_eval]; decide]

theorem C5_run_id :
    multiplicative_subgroup 7 3 (fun _ => 2) (fun _ => 3) (fun l => l) 1 =
      .ok [1, 2, 4] := by
  rw [msub_ok 7 3 (fun _ => 2) (fun _ => 3) (fun l => l) 1 3 2
    is_prime_7_two (by norm_num) (by norm_num) (by norm_num) findGen_7_3
    (by rw [powersList_7]; decide)]
  rw [powersList_7]
  decide

theorem C5_run_rev :
    multiplicative_subgroup 7 3 (fun _ => 2) (fun _ => 3) (fun l => l.reverse) 1 =
      .ok [1, 4, 2] := by
  rw [msub_ok 7 3 (fun _ => 2) (fun _ => 3) (fun l => l.reverse) 1 3 0
    is_prime_7_two (by norm_num) (by norm_num) (by norm_num) findGen_7_3
    (by rw [powersList_7]; decide)]
  rw [powersList_7]
  decide

theorem is_prime_2047_two : is_prime 2047 5 (fun _ => 2) = true := by
  rw [is_prime_eq_E]
  decide

theorem is_prime_P_two : is_prime 4503633923 5 (fun _ => 2) = false := by
  rw [is_prime_eq_E]
  decide

theorem is_generator_P_4 : is_generator 4503633923 4 = true := by
  rw [is_generator, trimmedFactors_P, genLoop_eq_E]
  decide

/-!  Completeness of the Miller-Rabin rounds on true primes: below the
overflow threshold a prime passes every round, whatever witnesses the RNG
produced.  (Above `2 ^ 32` this fails: see `is_prime_P_two`.) -/

theorem squareRounds_false_of_hits (p : ℕ) :
    ∀ k x, (∃ t, 1 ≤ t ∧ t ≤ k ∧ (fun y => mod_exp y 2 p)^[t] x = p - 1) →
      squareRounds p x k = false := by
  intro k
  induction k with
  | zero =>
    rintro x ⟨t, ht1, ht0, _⟩
    omega
  | succ k ih =>
    rintro x ⟨t, ht1, htk, hthit⟩
    rw [squareRounds]
    by_cases hy : mod_exp x 2 p = p - 1
    · rw [if_pos hy]
    · rw [if_neg hy]
      have ht2 : 2 ≤ t := by
        rcases Nat.lt_or_ge t 2 with h | h
        · exfalso
          have : t = 1 := by omega
          subst this
          simp only [Function.iterate_one] at hthit
          exact hy hthit
        · exact h
      apply ih
      refine ⟨t - 1, by omega, by omega, ?_⟩
      have hts : t = (t - 1) + 1 := by omega
      rw [hts, Function.iterate_succ_apply] at hthit
      exact hthit

theorem mr_round_passes (p : ℕ) (hp : Nat.Prime p) (hp5 : 5 ≤ p)
    (hple : p ≤ 2 ^ 32) (r s : ℕ) (hrs : splitTwos (p - 1) 0 = (r, s))
    (a : ℕ) (ha2 : 2 ≤ a) (halt : a < p - 2) :
    mod_exp a s p = 1 ∨ mod_exp a s p = p - 1 ∨
      squareRounds p (mod_exp a s p) (r - 1) = false := by
  haveI : Fact (Nat.Prime p) := ⟨hp⟩
  have hp2 : 2 ≤ p := by omega
  obtain ⟨hsodd, hprod, -⟩ := splitTwos_spec (p - 1) 0 (by omega)
  rw [hrs] at hsodd hprod
  replace hsodd : s % 2 = 1 := hsodd
  replace hprod : 2 ^ r * s = 2 ^ 0 * (p - 1) := hprod
  rw [pow_zero, one_mul] at hprod
  have hpodd : p % 2 = 1 := Nat.odd_iff.mp (hp.odd_of_ne_two (by omega))
  have hr1 : 1 ≤ r := by
    rcases Nat.eq_zero_or_pos r with h0 | h
    · exfalso
      rw [h0, pow_zero, one_mul] at hprod
      omega
    · exact h
  have hA0 : ((a : ℕ) : ZMod p) ≠ 0 := by
    intro h
    rw [ZMod.natCast_zmod_eq_zero_iff_dvd] at h
    have := Nat.le_of_dvd (by omega) h
    omega
  have hAp : ((a : ℕ) : ZMod p) ^ (p - 1) = 1 :=
    ZMod.pow_card_sub_one_eq_one hA0
  have hXr : (((a : ℕ) : ZMod p) ^ s) ^ 2 ^ r = 1 := by
    rw [← pow_mul, mul_comm s (2 ^ r), hprod]
    exact hAp
  have hx0 : mod_exp a s p = a ^ s % p := mod_exp_exact a s p hp2 hple
  have hx0lt : mod_exp a s p < p := by
    rw [hx0]
    exact Nat.mod_lt _ (by omega)
  have hcast : ((mod_exp a s p : ℕ) : ZMod p) = ((a : ℕ) : ZMod p) ^ s := by
    rw [hx0, ZMod.natCast_mod, Nat.cast_pow]
  have hcastp1 : (((p - 1 : ℕ)) : ZMod p) = -1 := by
    have hpz : ((p : ℕ) : ZMod p) = 0 := ZMod.natCast_self p
    rw [Nat.cast_sub (by omega), hpz, Nat.cast_one]
    ring
  by_cases hX1 : ((a : ℕ) : ZMod p) ^ s = 1
  · left
    rw [← hcast] at hX1
    exact (zmod_natCast_eq_one p (mod_exp a s p) (by omega) hx0lt).mp hX1
  have hex : ∃ jmax, (((a : ℕ) : ZMod p) ^ s) ^ 2 ^ jmax = 1 := ⟨r, hXr⟩
  have hjspec := Nat.find_spec hex
  have hjr : Nat.find hex ≤ r := Nat.find_min' hex hXr
  have hj0 : Nat.find hex ≠ 0 := by
    intro h0
    rw [h0, pow_zero, pow_one] at hjspec
    exact hX1 hjspec
  obtain ⟨jj, hj⟩ : ∃ jj, Nat.find hex = jj + 1 :=
    ⟨Nat.find hex - 1, by omega⟩
  have hY1 : (((a : ℕ) : ZMod p) ^ s) ^ 2 ^ jj ≠ 1 :=
    Nat.find_min hex (by omega)
  have hYsq : ((((a : ℕ) : ZMod p) ^ s) ^ 2 ^ jj) ^ 2 = 1 := by
    rw [← pow_mul, ← pow_succ, ← hj]
    exact hjspec
  have hYneg : (((a : ℕ) : ZMod p) ^ s) ^ 2 ^ jj = -1 := by
    have hfac : ((((a : ℕ) : ZMod p) ^ s) ^ 2 ^ jj - 1) *
        ((((a : ℕ) : ZMod p) ^ s) ^ 2 ^ jj + 1) = 0 := by
      linear_combination hYsq
    rcases mul_eq_zero.mp hfac with h | h
    · exact absurd (by linear_combination h) hY1
    · linear_combination h
  have hchain : ∀ t,
      (((fun y => mod_exp y 2 p)^[t] (mod_exp a s p) : ℕ) : ZMod p)
        = (((a : ℕ) : ZMod p) ^ s) ^ 2 ^ t ∧
      (fun y => mod_exp y 2 p)^[t] (mod_exp a s p) < p := by
    intro t
    induction t with
    | zero =>
      simp only [Function.iterate_zero, id]
      exact ⟨by rw [hcast, pow_zero, pow_one], hx0lt⟩
    | succ t iht =>
      obtain ⟨ihc, ihlt⟩ := iht
      rw [Function.iterate_succ_apply']
      constructor
      · rw [mod_exp_exact _ 2 p hp2 hple, ZMod.natCast_mod, Nat.cast_pow, ihc,
          ← pow_mul, ← pow_succ]
      · rw [mod_exp_exact _ 2 p hp2 hple]
        exact Nat.mod_lt _ (by omega)
  by_cases hjj0 : jj = 0
  · right; left
    subst hjj0
    have hzz : ((mod_exp a s p : ℕ) : ZMod p) = (((p - 1 : ℕ)) : ZMod p) := by
      rw [hcast, hcastp1]
      have := hYneg
      rwa [pow_zero, pow_one] at this
    exact (zmod_natCast_eq_iff p _ _ hx0lt (by omega)).mp hzz
  · right; right
    apply squareRounds_false_of_hits
    refine ⟨jj, by omega, by omega, ?_⟩
    obtain ⟨hc, hlt⟩ := hchain jj
    have hzz : (((fun y => mod_exp y 2 p)^[jj] (mod_exp a s p) : ℕ) : ZMod p)
        = (((p - 1 : ℕ)) : ZMod p) := by
      rw [hc, hYneg, hcastp1]
    exact (zmod_natCast_eq_iff p _ _ hlt (by omega)).mp hzz

theorem roundsFrom_all_pass (n s r : ℕ) (w : ℕ → ℕ)
    (h : ∀ i, mod_exp (w i) s n = 1 ∨ mod_exp (w i) s n = n - 1 ∨
      squareRounds n (mod_exp (w i) s n) (r - 1) = false) :
    ∀ i k, roundsFrom n s r w i k = true := by
  intro i k
  induction k generalizing i with
  | zero => rfl
  | succ k ih =>
    rw [roundsFrom]
    by_cases hx : mod_exp (w i) s n = 1 ∨ mod_exp (w i) s n = n - 1
    · rw [if_pos hx]
      exact ih (i + 1)
    · rw [if_neg hx]
      rcases h i with h1 | h1 | h1
      · exact absurd (Or.inl h1) hx
      · exact absurd (Or.inr h1) hx
      · rw [h1]
        rw [if_neg (by simp : ¬(false = true))]
        exact ih (i + 1)

/-- A prime `p ≤ 2 ^ 32` passes `is_prime` for every round count and every
witness stream within the `gen_range(2..n - 2)` contract: Miller-Rabin has
no false negatives as long as `mod_exp` does not overflow. -/
theorem is_prime_complete (p k : ℕ) (hp : Nat.Prime p) (hple : p ≤ 2 ^ 32)
    (w : ℕ → ℕ) (hw : validWitnesses p w) : is_prime p k w = true := by
  have hp2 : 2 ≤ p := hp.two_le
  by_cases h3 : p ≤ 3
  · rw [is_prime, if_neg (by omega), if_pos h3]
  · have hp5 : 5 ≤ p := by
      by_contra hlt
      have hp4 : p = 4 := by omega
      subst hp4
      exact absurd hp (by norm_num)
    rw [is_prime, if_neg (by omega), if_neg (by omega)]
    show roundsFrom p (splitTwos (p - 1) 0).2 (splitTwos (p - 1) 0).1 w 0 k = true
    apply roundsFrom_all_pass
    intro i
    have hwi := hw i
    rw [witnessRange, Finset.mem_Ico] at hwi
    exact mr_round_passes p hp hp5 hple (splitTwos (p - 1) 0).1
      (splitTwos (p - 1) 0).2 rfl (w i) hwi.1 (by omega)

/-!  Inversion of a successful `multiplicative_subgroup` run, and the list
bookkeeping for the `HashSet`-and-rotate postprocessing. -/

theorem findGen_inv :
    ∀ fuel i g, findGen p c i fuel = some g →
      is_generator p g = true ∧ ∃ j, g = c j := by
  intro fuel
  induction fuel with
  | zero =>
    intro i g h
    exact absurd h (by rw [findGen]; simp)
  | succ fuel ih =>
    intro i g h
    rw [findGen_succ] at h
    by_cases hgi : is_generator p (c i) = true
    · rw [if_pos hgi] at h
      obtain rfl : c i = g := Option.some_injective _ h
      exact ⟨hgi, i, rfl⟩
    · rw [if_neg hgi] at h
      exact ih (i + 1) g h

theorem insertAll_foldl_aux (f : List ℕ → ℕ → List ℕ)
    (hf : f = fun acc x => if x ∈ acc then acc else acc ++ [x]) :
    ∀ (l acc : List ℕ), acc.Nodup →
      (l.foldl f acc).Nodup ∧ ∀ x, x ∈ l.foldl f acc ↔ x ∈ acc ∨ x ∈ l := by
  intro l
  induction l with
  | nil =>
    intro acc hacc
    simp [hacc]
  | cons y ys ih =>
    intro acc hacc
    rw [List.foldl_cons]
    have hstep : (f acc y).Nodup ∧ ∀ x, x ∈ f acc y ↔ x ∈ acc ∨ x = y := by
      rw [hf]
      show (if y ∈ acc then acc else acc ++ [y]).Nodup ∧
        ∀ x, (x ∈ if y ∈ acc then acc else acc ++ [y]) ↔ x ∈ acc ∨ x = y
      by_cases hy : y ∈ acc
      · rw [if_pos hy]
        exact ⟨hacc, fun x => ⟨Or.inl, fun h => by
          rcases h with h | rfl
          · exact h
          · exact hy⟩⟩
      · rw [if_neg hy]
        constructor
        · rw [List.nodup_append]
          exact ⟨hacc, List.nodup_singleton y,
            fun a ha hb => hy (List.mem_singleton.mp hb ▸ ha)⟩
        · intro x
          simp [List.mem_append]
    obtain ⟨hn, hm⟩ := hstep
    obtain ⟨ihn, ihm⟩ := ih (f acc y) hn
    refine ⟨ihn, fun x => ?_⟩
    rw [ihm, hm]
    simp only [List.mem_cons]
    tauto

theorem insertAll_nodup (l : List ℕ) : (insertAll l).Nodup :=
  (insertAll_foldl_aux _ rfl l [] List.nodup_nil).1

theorem mem_insertAll (l : List ℕ) (x : ℕ) : x ∈ insertAll l ↔ x ∈ l := by
  have h := (insertAll_foldl_aux _ rfl l [] List.nodup_nil).2 x
  rw [insertAll, h]
  simp

theorem rotL_perm (l : List ℕ) (i : ℕ) : (rotL l i).Perm l := by
  rw [rotL]
  calc (l.drop i ++ l.take i).Perm (l.take i ++ l.drop i) := List.perm_append_comm
  _ = l := List.take_append_drop i l

theorem findPos_lt : ∀ (l : List ℕ) idx, findPos l = some idx → idx < l.length := by
  intro l
  induction l with
  | nil =>
    intro idx h
    exact absurd h (by rw [findPos]; simp)
  | cons x xs ih =>
    intro idx h
    rw [findPos] at h
    by_cases hx : x = 1
    · rw [if_pos hx] at h
      obtain rfl : (0 : ℕ) = idx := Option.some_injective _ h
      simp
    · rw [if_neg hx] at h
      rcases Option.map_eq_some'.mp h with ⟨j, hj, rfl⟩
      have := ih j hj
      simp
      omega

theorem findPos_rot :
    ∀ (l : List ℕ) idx, findPos l = some idx → ∃ t, rotL l idx = 1 :: t := by
  intro l
  induction l with
  | nil =>
    intro idx h
    exact absurd h (by rw [findPos]; simp)
  | cons x xs ih =>
    intro idx h
    rw [findPos] at h
    by_cases hx : x = 1
    · rw [if_pos hx] at h
      obtain rfl : (0 : ℕ) = idx := Option.some_injective _ h
      exact ⟨xs, by rw [rotL]; simp [hx]⟩
    · rw [if_neg hx] at h
      rcases Option.map_eq_some'.mp h with ⟨j, hj, rfl⟩
      obtain ⟨t, ht⟩ := ih j hj
      have hjlt := findPos_lt xs j hj
      rw [rotL] at ht ⊢
      have hdrop : (x :: xs).drop (j + 1) = xs.drop j := by simp
      have htake : (x :: xs).take (j + 1) = x :: xs.take j := by simp
      rw [hdrop, htake]
      have hne : xs.drop j ≠ [] := by
        intro hnil
        rw [List.drop_eq_nil_iff] at hnil
        omega
      obtain ⟨h1, t1, ht1⟩ : ∃ h1 t1, xs.drop j = h1 :: t1 := by
        rcases hd : xs.drop j with _ | ⟨h1, t1⟩
        · exact absurd hd hne
        · exact ⟨h1, t1, rfl⟩
      rw [ht1] at ht
      have hh1 : h1 = 1 := by
        have := congrArg List.head? ht
        simpa using this
      refine ⟨t1 ++ x :: xs.take j, ?_⟩
      rw [ht1, hh1]
      simp

theorem msub_ok_inv (p n : ℕ) (w c : ℕ → ℕ) (ord : List ℕ → List ℕ) (fuel : ℕ)
    (v : List ℕ) (h : multiplicative_subgroup p n w c ord fuel = .ok v) :
    is_prime p 5 w = true ∧ n ≠ 0 ∧ (p - 1) % n = 0 ∧ 2 < p - 1 ∧
      ∃ g idx, findGen p c 0 fuel = some g ∧
        findPos (ord (insertAll ((List.range' 1 n).map
          (fun i => mod_exp g (i * ((p - 1) / n)) p)))) = some idx ∧
        v = rotL (ord (insertAll ((List.range' 1 n).map
          (fun i => mod_exp g (i * ((p - 1) / n)) p)))) idx := by
  rw [multiplicative_subgroup] at h
  by_cases hip : is_prime p 5 w = true
  · rw [if_neg (by simp [hip])] at h
    by_cases hn : n = 0
    · rw [if_pos hn] at h
      exact absurd h (by simp)
    · rw [if_neg hn] at h
      by_cases hdvd : (p - 1) % n = 0
      · rw [if_neg (by simp [hdvd])] at h
        by_cases hsmall : p - 1 ≤ 2
        · rw [if_pos hsmall] at h
          exact absurd h (by simp)
        · rw [if_neg hsmall] at h
          refine ⟨hip, hn, hdvd, by omega, ?_⟩
          rcases hfg : findGen p c 0 fuel with _ | g
          · rw [hfg] at h
            exact absurd h (by simp)
          · rw [hfg] at h
            simp only [] at h
            rcases hfp : findPos (ord (insertAll ((List.range' 1 n).map
                (fun i => mod_exp g (i * ((p - 1) / n)) p)))) with _ | idx
            · rw [hfp] at h
              exact absurd h (by simp)
            · rw [hfp] at h
              simp only [RunResult.ok.injEq] at h
              exact ⟨g, idx, rfl, hfp, h.symm⟩
      · rw [if_pos (by simp [hdvd])] at h
        exact absurd h (by simp)
  · rw [if_pos (by simpa using hip)] at h
    exact absurd h (by simp)

/-!  Below the overflow threshold, `is_generator` answers exactly the
question "does `g` generate the full group mod `p`", i.e. `g` has
multiplicative order `p - 1` in `ZMod p`. -/

theorem mod_exp_eq_one_iff (p g e : ℕ) (hp2 : 2 ≤ p) (hple : p ≤ 2 ^ 32) :
    mod_exp g e p = 1 ↔ ((g : ℕ) : ZMod p) ^ e = 1 := by
  rw [mod_exp_exact g e p hp2 hple]
  have hcast : ((g ^ e % p : ℕ) : ZMod p) = ((g : ℕ) : ZMod p) ^ e := by
    rw [ZMod.natCast_mod, Nat.cast_pow]
  constructor
  · intro h
    rw [← hcast, h, Nat.cast_one]
  · intro h
    rw [← hcast] at h
    exact (zmod_natCast_eq_one p _ (by omega) (Nat.mod_lt _ (by omega))).mp h

theorem is_generator_iff_orderOf (p g : ℕ) (hp : Nat.Prime p) (hp5 : 5 ≤ p)
    (hple : p ≤ 2 ^ 32) (hg2 : 2 ≤ g) (hglt : g ≤ p - 2) :
    is_generator p g = true ↔ orderOf ((g : ℕ) : ZMod p) = p - 1 := by
  haveI : Fact (Nat.Prime p) := ⟨hp⟩
  have hp2 : 2 ≤ p := by omega
  have h2p1 : 2 ≤ p - 1 := by omega
  have hg0 : ((g : ℕ) : ZMod p) ≠ 0 := by
    intro h
    rw [ZMod.natCast_zmod_eq_zero_iff_dvd] at h
    have := Nat.le_of_dvd (by omega) h
    omega
  have hferm : ((g : ℕ) : ZMod p) ^ (p - 1) = 1 :=
    ZMod.pow_card_sub_one_eq_one hg0
  have hdvd : orderOf ((g : ℕ) : ZMod p) ∣ p - 1 :=
    orderOf_dvd_of_pow_eq_one hferm
  have hpos : 0 < orderOf ((g : ℕ) : ZMod p) := by
    rcases Nat.eq_zero_or_pos (orderOf ((g : ℕ) : ZMod p)) with h0 | h
    · exfalso
      rw [h0] at hdvd
      have := Nat.eq_zero_of_zero_dvd hdvd
      omega
    · exact h
  have hne1 : orderOf ((g : ℕ) : ZMod p) ≠ 1 := by
    intro h1
    have hgone : ((g : ℕ) : ZMod p) = 1 := orderOf_eq_one_iff.mp h1
    have := (zmod_natCast_eq_one p g (by omega) (by omega)).mp hgone
    omega
  constructor
  · intro hgen
    by_contra hne
    have hlt : orderOf ((g : ℕ) : ZMod p) < p - 1 :=
      lt_of_le_of_ne (Nat.le_of_dvd (by omega) hdvd) hne
    obtain ⟨m, hm⟩ := hdvd
    have hd2 : 2 ≤ orderOf ((g : ℕ) : ZMod p) := by omega
    have hm2 : 2 ≤ m := by
      rcases m with _ | _ | m
      · rw [Nat.mul_zero] at hm
        omega
      · rw [Nat.mul_one] at hm
        omega
      · omega
    have hmlt : m < p - 1 := by
      have h2m : 2 * m ≤ orderOf ((g : ℕ) : ZMod p) * m :=
        Nat.mul_le_mul_right m hd2
      rw [← hm] at h2m
      omega
    have hfdvdm : m ∣ p - 1 := Dvd.intro_left _ hm.symm
    have hf := (is_generator_true_iff p g h2p1).mp hgen m hfdvdm hm2 hmlt
    apply hf
    have hdivm : (p - 1) / m = orderOf ((g : ℕ) : ZMod p) := by
      rw [hm, Nat.mul_div_cancel _ (by omega : 0 < m)]
    rw [hdivm, mod_exp_eq_one_iff p g _ hp2 hple]
    exact pow_orderOf_eq_one _
  · intro hord
    rw [is_generator_true_iff p g h2p1]
    intro f hfdvd hf2 hflt hone
    rw [mod_exp_eq_one_iff p g _ hp2 hple] at hone
    have hdvd2 : orderOf ((g : ℕ) : ZMod p) ∣ (p - 1) / f :=
      orderOf_dvd_of_pow_eq_one hone
    rw [hord] at hdvd2
    have hq : 0 < (p - 1) / f :=
      Nat.div_pos (Nat.le_of_dvd (by omega) hfdvd) (by omega)
    have hle := Nat.le_of_dvd hq hdvd2
    have hlt2 : (p - 1) / f ≤ (p - 1) / 2 := Nat.div_le_div_left hf2 (by norm_num)
    omega
/-!  The `n` powers `g ^ (i ⬝ (p-1)/n) mod p`, `i = 1..n`, of a full-order
`g` are exactly the `n`-th roots of unity mod `p`; in particular the set
of inserted elements does not depend on which generator the random search
found. -/

theorem powers_mem_iff (p n g : ℕ) (hp : Nat.Prime p) (hp5 : 5 ≤ p)
    (hple : p ≤ 2 ^ 32) (hn1 : 1 ≤ n) (hdvd : n ∣ p - 1)
    (hord : orderOf ((g : ℕ) : ZMod p) = p - 1) :
    ∀ y, y ∈ (List.range' 1 n).map (fun i => mod_exp g (i * ((p - 1) / n)) p)
      ↔ (y < p ∧ ((y : ℕ) : ZMod p) ^ n = 1) := by
  haveI : Fact (Nat.Prime p) := ⟨hp⟩
  have hp2 : 2 ≤ p := by omega
  have hdn : (p - 1) / n * n = p - 1 := Nat.div_mul_cancel hdvd
  have hd1 : 1 ≤ (p - 1) / n := by
    rcases Nat.eq_zero_or_pos ((p - 1) / n) with h0 | h
    · rw [h0] at hdn
      omega
    · exact h
  have hx1 : ((g : ℕ) : ZMod p) ^ (p - 1) = 1 := by
    rw [← hord]
    exact pow_orderOf_eq_one _
  have hx0 : ((g : ℕ) : ZMod p) ≠ 0 := by
    intro h
    rw [h] at hx1
    rw [zero_pow (by omega : p - 1 ≠ 0)] at hx1
    exact zero_ne_one hx1
  have hcast : ∀ e, ((mod_exp g e p : ℕ) : ZMod p) = ((g : ℕ) : ZMod p) ^ e := by
    intro e
    rw [mod_exp_exact g e p hp2 hple, ZMod.natCast_mod, Nat.cast_pow]
  have hlt : ∀ e, mod_exp g e p < p := fun e => mod_exp_lt_of_two_le g e p hp2
  -- each listed power is an n-th root of unity
  have hroot : ∀ i, (((g : ℕ) : ZMod p) ^ (i * ((p - 1) / n))) ^ n = 1 := by
    intro i
    rw [← pow_mul, mul_assoc, hdn, mul_comm i (p - 1), pow_mul, hx1, one_pow]
  -- the ZMod images of the list are pairwise distinct
  have hinj : ∀ i ∈ List.range' 1 n, ∀ j ∈ List.range' 1 n,
      ((g : ℕ) : ZMod p) ^ (i * ((p - 1) / n)) =
        ((g : ℕ) : ZMod p) ^ (j * ((p - 1) / n)) → i = j := by
    have haux : ∀ i j, 1 ≤ i → i ≤ j → j ≤ n →
        ((g : ℕ) : ZMod p) ^ (i * ((p - 1) / n)) =
          ((g : ℕ) : ZMod p) ^ (j * ((p - 1) / n)) → i = j := by
      intro i j hi1 hij hjn heq
      by_contra hne
      have hij2 : i < j := by omega
      have hsplit : j * ((p - 1) / n) =
          i * ((p - 1) / n) + (j - i) * ((p - 1) / n) := by
        have : j = i + (j - i) := by omega
        calc j * ((p - 1) / n) = (i + (j - i)) * ((p - 1) / n) := by rw [← this]
        _ = i * ((p - 1) / n) + (j - i) * ((p - 1) / n) := by ring
      rw [hsplit, pow_add] at heq
      have hcancel : ((g : ℕ) : ZMod p) ^ ((j - i) * ((p - 1) / n)) = 1 := by
        have hner : ((g : ℕ) : ZMod p) ^ (i * ((p - 1) / n)) ≠ 0 :=
          pow_ne_zero _ hx0
        have h2 : ((g : ℕ) : ZMod p) ^ (i * ((p - 1) / n)) * 1 =
            ((g : ℕ) : ZMod p) ^ (i * ((p - 1) / n)) *
              ((g : ℕ) : ZMod p) ^ ((j - i) * ((p - 1) / n)) := by
          rw [mul_one]
          exact heq
        exact (mul_left_cancel₀ hner h2).symm
      have hdvd3 : orderOf ((g : ℕ) : ZMod p) ∣ (j - i) * ((p - 1) / n) :=
        orderOf_dvd_of_pow_eq_one hcancel
      rw [hord] at hdvd3
      have hposji : 0 < (j - i) * ((p - 1) / n) := by
        have : 0 < j - i := by omega
        exact Nat.mul_pos this hd1
      have hle := Nat.le_of_dvd hposji hdvd3
      have hltn : (j - i) * ((p - 1) / n) < n * ((p - 1) / n) := by
        exact (Nat.mul_lt_mul_right hd1).mpr (by omega)
      rw [mul_comm n ((p - 1) / n)] at hltn
      rw [hdn] at hltn
      omega
    intro i hi j hj heq
    rw [List.mem_range'_1] at hi hj
    rcases le_or_lt i j with h | h
    · exact haux i j hi.1 h (by omega) heq
    · exact (haux j i hj.1 (by omega) (by omega) heq.symm).symm
  intro y
  constructor
  · intro hy
    rw [List.mem_map] at hy
    obtain ⟨i, hi, rfl⟩ := hy
    refine ⟨hlt _, ?_⟩
    rw [hcast]
    exact hroot i
  · rintro ⟨hyp, hyroot⟩
    -- counting: the n distinct listed roots exhaust all n-th roots of 1
    have hzn : ((List.range' 1 n).map
        (fun i => ((g : ℕ) : ZMod p) ^ (i * ((p - 1) / n)))).Nodup :=
      (List.nodup_range' 1 n).map_on
        (fun i hi j hj hij => hinj i hi j hj hij)
    have hlen : ((List.range' 1 n).map
        (fun i => ((g : ℕ) : ZMod p) ^ (i * ((p - 1) / n)))).length = n := by
      rw [List.length_map, List.length_range']
    have hsubroots : ∀ z ∈ (List.range' 1 n).map
        (fun i => ((g : ℕ) : ZMod p) ^ (i * ((p - 1) / n))),
        z ∈ (Polynomial.nthRoots n (1 : ZMod p)).toFinset := by
      intro z hz
      rw [List.mem_map] at hz
      obtain ⟨i, _, rfl⟩ := hz
      rw [Multiset.mem_toFinset, Polynomial.mem_nthRoots (by omega : 0 < n)]
      exact hroot i
    have hTsub : ((List.range' 1 n).map
        (fun i => ((g : ℕ) : ZMod p) ^ (i * ((p - 1) / n)))).toFinset ⊆
        (Polynomial.nthRoots n (1 : ZMod p)).toFinset := by
      intro z hz
      rw [List.mem_toFinset] at hz
      exact hsubroots z hz
    have hTcard : ((List.range' 1 n).map
        (fun i => ((g : ℕ) : ZMod p) ^ (i * ((p - 1) / n)))).toFinset.card = n := by
      rw [List.toFinset_card_of_nodup hzn, hlen]
    have hRcard : (Polynomial.nthRoots n (1 : ZMod p)).toFinset.card ≤ n := by
      calc (Polynomial.nthRoots n (1 : ZMod p)).toFinset.card
          ≤ Multiset.card (Polynomial.nthRoots n (1 : ZMod p)) :=
            Multiset.toFinset_card_le _
      _ ≤ n := Polynomial.card_nthRoots n 1
    have hTeq : ((List.range' 1 n).map
        (fun i => ((g : ℕ) : ZMod p) ^ (i * ((p - 1) / n)))).toFinset =
        (Polynomial.nthRoots n (1 : ZMod p)).toFinset :=
      Finset.eq_of_subset_of_card_le hTsub (by omega)
    have hyin : ((y : ℕ) : ZMod p) ∈ ((List.range' 1 n).map
        (fun i => ((g : ℕ) : ZMod p) ^ (i * ((p - 1) / n)))).toFinset := by
      rw [hTeq, Multiset.mem_toFinset, Polynomial.mem_nthRoots (by omega : 0 < n)]
      exact hyroot
    rw [List.mem_toFinset, List.mem_map] at hyin
    obtain ⟨i, hi, hiy⟩ := hyin
    rw [List.mem_map]
    refine ⟨i, hi, ?_⟩
    have hcasteq : ((mod_exp g (i * ((p - 1) / n)) p : ℕ) : ZMod p) =
        ((y : ℕ) : ZMod p) := by
      rw [hcast]
      exact hiy
    exact (zmod_natCast_eq_iff p _ _ (hlt _) hyp).mp hcasteq

/-- Everything the later claims need about a successful run: the result is
duplicate-free, starts with `1`, and (below the overflow threshold, for a
true prime) its elements are exactly the `n`-th roots of unity mod `p`. -/
theorem msub_ok_analysis (p n : ℕ) (w c : ℕ → ℕ) (ord : List ℕ → List ℕ)
    (fuel : ℕ) (v : List ℕ) (hp : Nat.Prime p) (hple : p ≤ 2 ^ 32)
    (hc : validCandidates p c) (ho : validOrd ord)
    (h : multiplicative_subgroup p n w c ord fuel = .ok v) :
    v.Nodup ∧ v.head? = some 1 ∧ 1 ≤ n ∧ n ∣ p - 1 ∧
      ∀ y, y ∈ v ↔ (y < p ∧ ((y : ℕ) : ZMod p) ^ n = 1) := by
  obtain ⟨hip, hn, hdvd, hbig, g, idx, hfg, hfp, hv⟩ := msub_ok_inv p n w c ord fuel v h
  have hp5 : 5 ≤ p := by
    have h4 : 4 ≤ p := by omega
    rcases Nat.lt_or_ge p 5 with hlt | hge
    · exfalso
      have : p = 4 := by omega
      subst this
      exact absurd hp (by norm_num)
    · exact hge
  have hndvd : n ∣ p - 1 := by
    have := Nat.dvd_of_mod_eq_zero hdvd
    exact this
  obtain ⟨hgen, j, rfl⟩ := findGen_inv fuel 0 g hfg
  have hcj := hc j
  rw [candidateRange, Finset.mem_Ico] at hcj
  have hord : orderOf ((c j : ℕ) : ZMod p) = p - 1 :=
    (is_generator_iff_orderOf p (c j) hp hp5 hple hcj.1 (by omega)).mp hgen
  have hmem := powers_mem_iff p n (c j) hp hp5 hple (by omega) hndvd hord
  have hpermv : v.Perm (insertAll ((List.range' 1 n).map
      (fun i => mod_exp (c j) (i * ((p - 1) / n)) p))) := by
    rw [hv]
    exact (rotL_perm _ idx).trans (ho _)
  refine ⟨?_, ?_, by omega, hndvd, ?_⟩
  · exact hpermv.nodup_iff.mpr (insertAll_nodup _)
  · obtain ⟨t, ht⟩ := findPos_rot _ idx hfp
    rw [hv, ht]
    rfl
  · intro y
    rw [hpermv.mem_iff, mem_insertAll]
    exact hmem y

/-!  ## Claim theorems -/

/-- C1: the claim says `mod_exp(a, s, n)` equals the exact `a ^ s mod n`
for every modulus up to the top of the `u64` range, its intermediate
products never wrapping modulo `2 ^ 64`.  The code violates this: at
`a = 2 ^ 32`, `s = 2`, `n = 2 ^ 64 - 1` the intermediate square `2 ^ 64`
wraps to `0`, so the function returns `0` while the exact value is `1`. -/
theorem C1_mod_exp_overflow :
    mod_exp (2 ^ 32) 2 (2 ^ 64 - 1) = 0 ∧ (2 ^ 32) ^ 2 % (2 ^ 64 - 1) = 1 := by
  constructor
  · rw [mod_exp_eval]
    decide
  · norm_num

/-- C2: the claim says every `Ok` vector of `multiplicative_subgroup(p, n)`
for prime `p` and `n ∣ p - 1` has `n` distinct elements, starts with `1`,
and satisfies `mod_exp(e, n, p) = 1` for each element `e`.  The code
violates the last part: in the recorded run at the prime `4503633923`
(witnesses all `7`, candidate `188`, insertion iteration order) the call
returns `Ok [1, 3327351735]`, where `3327351735` is an overflow-corrupted
power with `mod_exp(3327351735, 2, 4503633923) ≠ 1`. -/
theorem C2_subgroup_membership_bug :
    Nat.Prime 4503633923 ∧ (2 : ℕ) ∣ 4503633923 - 1 ∧
      validWitnesses 4503633923 (fun _ => 7) ∧
      validCandidates 4503633923 (fun _ => 188) ∧
      validOrd (fun l => l) ∧
      multiplicative_subgroup 4503633923 2 (fun _ => 7) (fun _ => 188)
        (fun l => l) 1 = .ok [1, 3327351735] ∧
      mod_exp 3327351735 2 4503633923 ≠ 1 := by
  refine ⟨prime_P, by norm_num, ?_, ?_, ?_, C2_run, ?_⟩
  · intro i
    rw [witnessRange, Finset.mem_Ico]
    norm_num
  · intro i
    rw [candidateRange, Finset.mem_Ico]
    norm_num
  · intro l
    exact List.Perm.refl l
  · rw [mod_exp_eval]
    decide

/-- C3 (counterexample): the claim says `multiplicative_subgroup(p, n)`
fails with `NotPrime` whenever `p` is composite.  But the primality gate is
the probabilistic Miller-Rabin run on the sampled witnesses: the composite
`2047 = 23 ⬝ 89` passes all five rounds when every witness is `2` (a legal
`gen_range(2..2045)` value), and the call proceeds to the divisibility
check, failing with `NotFactor` instead. -/
theorem C3_composite_reaches_notFactor :
    ¬Nat.Prime 2047 ∧ validWitnesses 2047 (fun _ => 2) ∧
      multiplicative_subgroup 2047 4 (fun _ => 2) (fun _ => 2) (fun l => l) 1 =
        .notFactor := by
  refine ⟨by norm_num, ?_, ?_⟩
  · intro i
    rw [witnessRange, Finset.mem_Ico]
    norm_num
  · exact msub_notFactor 2047 4 _ _ _ _ is_prime_2047_two (by norm_num) (by norm_num)

/-- C3 (amended): `multiplicative_subgroup(p, n)` fails with `NotPrime`
exactly when the five-round Miller-Rabin run on the sampled witnesses
rejects `p` (for composite `p` that is the overwhelmingly likely but not
certain outcome), and fails with `NotFactor` whenever that run accepts `p`
and `n ≥ 1` does not divide `p - 1`; both validations precede the
generator search and are terminal. -/
theorem C3_validation_behaviour (p n : ℕ) (w c : ℕ → ℕ)
    (ord : List ℕ → List ℕ) (fuel : ℕ) :
    (multiplicative_subgroup p n w c ord fuel = .notPrime ↔
      is_prime p 5 w = false) ∧
    (is_prime p 5 w = true → 0 < n → ¬n ∣ p - 1 →
      multiplicative_subgroup p n w c ord fuel = .notFactor) := by
  constructor
  · constructor
    · intro hres
      rcases Bool.eq_false_or_eq_true (is_prime p 5 w) with ht | hf
      · exact absurd hres (msub_ne_notPrime p n w c ord fuel ht)
      · exact hf
    · intro h
      exact msub_notPrime p n w c ord fuel h
  · intro h hn hnd
    refine msub_notFactor p n w c ord fuel h (by omega) ?_
    intro hmod
    exact hnd (Nat.dvd_of_mod_eq_zero hmod)

theorem C3_validation_behaviour_witness :
    multiplicative_subgroup 6 5 (fun _ => 2) (fun _ => 2) (fun l => l) 1 =
        .notPrime ∧
      multiplicative_subgroup 7 5 (fun _ => 2) (fun _ => 3) (fun l => l) 1 ≠
        .notPrime ∧
      multiplicative_subgroup 7 5 (fun _ => 2) (fun _ => 3) (fun l => l) 1 =
        .notFactor := by
  refine ⟨?_, ?_, ?_⟩
  · exact (C3_validation_behaviour 6 5 (fun _ => 2) (fun _ => 2) (fun l => l) 1).1.mpr
      (by rw [is_prime_eq_E]; decide)
  · intro hcon
    have hfalse :=
      (C3_validation_behaviour 7 5 (fun _ => 2) (fun _ => 3) (fun l => l) 1).1.mp hcon
    exact absurd (is_prime_7_two.symm.trans hfalse) (by decide)
  · exact (C3_validation_behaviour 7 5 (fun _ => 2) (fun _ => 3) (fun l => l) 1).2
      is_prime_7_two (by norm_num) (by norm_num)

/-- C4 (counterexample): the claim says the Miller-Rabin witness is drawn
uniformly from the inclusive range `[2, n-2]`, so that `n - 2` is a
possible witness.  The code draws from the half-open Rust range
`2..n - 2`; at `n = 7` the value `n - 2 = 5` is not in the range. -/
theorem C4_witness_range_exclusive : (7 : ℕ) - 2 ∉ witnessRange 7 := by
  rw [witnessRange, Finset.mem_Ico]
  norm_num

/-- C4 (amended): for `n ≥ 5` the witness is drawn from `2..n - 2`, i.e.
the inclusive range `[2, n - 3]`: the value `n - 2` can never be sampled
while `n - 3` can. -/
theorem C4_witness_range (n : ℕ) (h5 : 5 ≤ n) :
    witnessRange n = Finset.Icc 2 (n - 3) ∧ n - 2 ∉ witnessRange n ∧
      n - 3 ∈ witnessRange n := by
  refine ⟨?_, ?_, ?_⟩
  · rw [witnessRange]
    ext x
    rw [Finset.mem_Ico, Finset.mem_Icc]
    omega
  · rw [witnessRange, Finset.mem_Ico]
    omega
  · rw [witnessRange, Finset.mem_Ico]
    omega

theorem C4_witness_range_witness :
    witnessRange 7 = Finset.Icc 2 4 ∧ (5 : ℕ) ∉ witnessRange 7 ∧
      (4 : ℕ) ∈ witnessRange 7 := by
  have h := C4_witness_range 7 (by norm_num)
  norm_num at h
  exact h

/-- C5 (counterexample): the claim says any two successful calls with the
same `(p, n)` return element-wise equal vectors regardless of the
randomness and container iteration order.  At `(7, 3)` the same witness
and candidate choices yield `Ok [1, 2, 4]` under insertion iteration order
and `Ok [1, 4, 2]` under the reversed order — both orders are legitimate
`HashSet` iterations of the same three inserted elements. -/
theorem C5_order_not_reproducible :
    validWitnesses 7 (fun _ => 2) ∧ validCandidates 7 (fun _ => 3) ∧
      validOrd (fun l => l) ∧ validOrd (fun l => l.reverse) ∧
      multiplicative_subgroup 7 3 (fun _ => 2) (fun _ => 3) (fun l => l) 1 =
        .ok [1, 2, 4] ∧
      multiplicative_subgroup 7 3 (fun _ => 2) (fun _ => 3) (fun l => l.reverse) 1 =
        .ok [1, 4, 2] ∧
      ([1, 2, 4] : List ℕ) ≠ [1, 4, 2] := by
  refine ⟨?_, ?_, ?_, ?_, C5_run_id, C5_run_rev, by decide⟩
  · intro i
    rw [witnessRange, Finset.mem_Ico]
    norm_num
  · intro i
    rw [candidateRange, Finset.mem_Ico]
    norm_num
  · intro l
    exact List.Perm.refl l
  · intro l
    exact l.reverse_perm

/-- C5 (amended): for a prime `p ≤ 2 ^ 32`, any two successful calls with
the same `(p, n)` return vectors that are permutations of one another —
the element set is exactly the set of `n`-th roots of unity mod `p`, which
does not depend on the sampled generator — and both vectors start with
`1`; only the order of the remaining elements varies with the container
iteration order. -/
theorem C5_subgroup_set_deterministic (p n : ℕ) (w1 w2 c1 c2 : ℕ → ℕ)
    (o1 o2 : List ℕ → List ℕ) (f1 f2 : ℕ) (v1 v2 : List ℕ)
    (hp : Nat.Prime p) (hple : p ≤ 2 ^ 32)
    (hc1 : validCandidates p c1) (hc2 : validCandidates p c2)
    (ho1 : validOrd o1) (ho2 : validOrd o2)
    (h1 : multiplicative_subgroup p n w1 c1 o1 f1 = .ok v1)
    (h2 : multiplicative_subgroup p n w2 c2 o2 f2 = .ok v2) :
    v1.Perm v2 ∧ v1.head? = some 1 ∧ v2.head? = some 1 := by
  obtain ⟨hn1, hh1, -, -, hm1⟩ := msub_ok_analysis p n w1 c1 o1 f1 v1 hp hple hc1 ho1 h1
  obtain ⟨hn2, hh2, -, -, hm2⟩ := msub_ok_analysis p n w2 c2 o2 f2 v2 hp hple hc2 ho2 h2
  refine ⟨?_, hh1, hh2⟩
  rw [List.perm_ext_iff_of_nodup hn1 hn2]
  intro a
  rw [hm1, hm2]

theorem C5_subgroup_set_deterministic_witness :
    ([1, 2, 4] : List ℕ).Perm [1, 4, 2] ∧
      ([1, 2, 4] : List ℕ).head? = some 1 ∧
      ([1, 4, 2] : List ℕ).head? = some 1 :=
  C5_subgroup_set_deterministic 7 3 (fun _ => 2) (fun _ => 2) (fun _ => 3)
    (fun _ => 3) (fun l => l) (fun l => l.reverse) 1 1 [1, 2, 4] [1, 4, 2]
    (by norm_num) (by norm_num)
    (fun i => by rw [candidateRange, Finset.mem_Ico]; norm_num)
    (fun i => by rw [candidateRange, Finset.mem_Ico]; norm_num)
    (fun l => List.Perm.refl l) (fun l => l.reverse_perm)
    C5_run_id C5_run_rev

/-- C6 (counterexample): the claim says `mod_exp(a, s, m)` lands in
`[0, m)` for every `m ≥ 1`.  At `m = 1`, `s = 0` the loop never runs and
the unreduced initial `result = 1` is returned, which is not `< 1`. -/
theorem C6_modulus_one_escape :
    mod_exp 5 0 1 = 1 ∧ ¬mod_exp 5 0 1 < 1 := by
  constructor
  · exact mod_exp_zero_exponent 5 1
  · rw [mod_exp_zero_exponent]
    omega

/-- C6 (amended): `mod_exp(a, s, m)` returns a value in `[0, m)` whenever
`s ≥ 1` (for any `m ≥ 1`) and whenever `m ≥ 2` (for any `s`); for `s = 0`
it returns `1` for every modulus, which escapes `[0, m)` exactly when
`m = 1`.  In particular `mod_exp(a, 0, n) = 1` for every `n > 1`, as
claimed. -/
theorem C6_mod_exp_range (a s m : ℕ) (hm : 1 ≤ m) :
    (1 ≤ s → mod_exp a s m < m) ∧ (2 ≤ m → mod_exp a s m < m) ∧
      (s = 0 → mod_exp a s m = 1) := by
  refine ⟨fun hs => mod_exp_lt a s m hm hs,
    fun h2 => mod_exp_lt_of_two_le a s m h2, fun hs => ?_⟩
  subst hs
  exact mod_exp_zero_exponent a m

theorem C6_mod_exp_range_witness :
    mod_exp 5 3 7 < 7 ∧ mod_exp 5 0 7 = 1 := by
  obtain ⟨h1, -, -⟩ := C6_mod_exp_range 5 3 7 (by norm_num)
  obtain ⟨-, -, h3⟩ := C6_mod_exp_range 5 0 7 (by norm_num)
  exact ⟨h1 (by norm_num), h3 rfl⟩

/-- C7: for even `n > 3` the decomposition of `n - 1` yields `r = 0`, the
inner squaring loop of a Miller-Rabin round runs `r - 1 = 0` times (the
source's `r` is an `i32`, so `0..r - 1` is the empty range `0..-1`, with
no unsigned underflow — modelled by `ℕ` truncated subtraction), and a
witness whose `x` is neither `1` nor `n - 1` makes the round return the
compositeness verdict immediately. -/
theorem C7_even_input_zero_inner_loop (n : ℕ) (heven : 2 ∣ n) (hgt : 3 < n) :
    (splitTwos (n - 1) 0).1 = 0 ∧ (splitTwos (n - 1) 0).1 - 1 = 0 ∧
      (∀ x, squareRounds n x ((splitTwos (n - 1) 0).1 - 1) = true) ∧
      (∀ w i k, mod_exp (w i) (splitTwos (n - 1) 0).2 n ≠ 1 →
        mod_exp (w i) (splitTwos (n - 1) 0).2 n ≠ n - 1 →
        roundsFrom n (splitTwos (n - 1) 0).2 (splitTwos (n - 1) 0).1 w i (k + 1) =
          false) := by
  obtain ⟨d, rfl⟩ := heven
  have hodd : (2 * d - 1) % 2 = 1 := by omega
  have hsp : splitTwos (2 * d - 1) 0 = (0, 2 * d - 1) := splitTwos_odd _ 0 hodd
  rw [hsp]
  refine ⟨rfl, rfl, fun x => rfl, ?_⟩
  intro w i k hx1 hxn
  rw [roundsFrom]
  rw [if_neg ?hcond]
  case hcond =>
    rintro (h | h)
    · exact hx1 h
    · exact hxn h
  have hsq : squareRounds (2 * d) (mod_exp (w i) ((0, 2 * d - 1) : ℕ × ℕ).2 (2 * d))
      (((0, 2 * d - 1) : ℕ × ℕ).1 - 1) = true := rfl
  rw [if_pos hsq]

theorem C7_even_input_zero_inner_loop_witness :
    (splitTwos (6 - 1) 0).1 = 0 ∧
      roundsFrom 6 (splitTwos (6 - 1) 0).2 (splitTwos (6 - 1) 0).1
        (fun _ => 2) 0 1 = false := by
  obtain ⟨h1, -, -, h4⟩ := C7_even_input_zero_inner_loop 6 (by norm_num) (by norm_num)
  refine ⟨h1, h4 (fun _ => 2) 0 0 ?_ ?_⟩
  · rw [splitTwos_eval, mod_exp_eval]
    decide
  · rw [splitTwos_eval, mod_exp_eval]
    decide

/-- C8: the claim says `is_generator(p, g)` returns true exactly when `g`
has multiplicative order `p - 1`.  The code violates this at the prime
`4503633923`: the quadratic residue `4 = 2 ^ 2` has order
`(p - 1) / 2 = 2251816961`, yet `is_generator` answers true because the
`u64`-wrapped `mod_exp(4, 2251816961, p)` evaluates to `0` instead of the
exact value `1`, so the order-`(p-1)/2` test is never triggered. -/
theorem C8_is_generator_wrong_verdict :
    Nat.Prime 4503633923 ∧ 2 ≤ 4 ∧ (4 : ℕ) ≤ 4503633923 - 2 ∧
      is_generator 4503633923 4 = true ∧
      ¬ordersTo 4 4503633923 (4503633923 - 1) := by
  refine ⟨prime_P, by norm_num, by norm_num, is_generator_P_4, ?_⟩
  rintro ⟨-, hmin⟩
  refine hmin 2251816961 (by norm_num) (by norm_num) ?_
  rw [← powMod_exact 4 2251816961 4503633923 (by norm_num), powMod_eval]
  decide

/-- C9 (counterexample): the claim says every prime `p` makes
`multiplicative_subgroup(p, 0)` panic on the division by zero.  At the
prime `4503633923 > 2 ^ 32` the overflow-corrupted Miller-Rabin run can
reject the prime first: with all witnesses `2`, the call returns
`NotPrime` and never reaches the `(p - 1) % 0` expression. -/
theorem C9_overflow_prime_rejected :
    Nat.Prime 4503633923 ∧ validWitnesses 4503633923 (fun _ => 2) ∧
      multiplicative_subgroup 4503633923 0 (fun _ => 2) (fun _ => 188)
        (fun l => l) 1 = .notPrime := by
  refine ⟨prime_P, ?_, ?_⟩
  · intro i
    rw [witnessRange, Finset.mem_Ico]
    norm_num
  · exact msub_notPrime _ _ _ _ _ _ is_prime_P_two

/-- C9 (amended): whenever the primality gate accepts `p`,
`multiplicative_subgroup(p, 0)` performs `(p - 1) % 0` and panics instead
of returning a `Result`; and every prime `p ≤ 2 ^ 32` is accepted by the
gate on every legal witness stream, so for those primes the original claim
holds unconditionally. -/
theorem C9_div_by_zero_panic (p : ℕ) (w c : ℕ → ℕ) (ord : List ℕ → List ℕ)
    (fuel : ℕ) :
    (is_prime p 5 w = true →
      multiplicative_subgroup p 0 w c ord fuel = .panic .divByZero) ∧
    (Nat.Prime p → p ≤ 2 ^ 32 → validWitnesses p w → is_prime p 5 w = true) :=
  ⟨msub_divZero p w c ord fuel, fun hp hle hw => is_prime_complete p 5 hp hle w hw⟩

theorem C9_div_by_zero_panic_witness :
    multiplicative_subgroup 7 0 (fun _ => 2) (fun _ => 3) (fun l => l) 1 =
        .panic .divByZero ∧
      is_prime 7 5 (fun _ => 2) = true := by
  have h := C9_div_by_zero_panic 7 (fun _ => 2) (fun _ => 3) (fun l => l) 1
  have hp : is_prime 7 5 (fun _ => 2) = true :=
    h.2 (by norm_num) (by norm_num)
      (fun i => by rw [witnessRange, Finset.mem_Ico]; norm_num)
  exact ⟨h.1 hp, hp⟩

/-- C10: for `p = 2` and `p = 3` with any `n` dividing `p - 1`, both
validations pass (the trivial-prime branch accepts `p`, and `n ∣ p - 1`
makes the divisibility check succeed), but `generate_candidate(p)` draws
from the empty Rust range `2..p - 1` and the call panics instead of
returning a subgroup. -/
theorem C10_small_prime_empty_range_panic (p n : ℕ) (w c : ℕ → ℕ)
    (ord : List ℕ → List ℕ) (fuel : ℕ) (hp : p = 2 ∨ p = 3) (hn : n ∣ p - 1) :
    multiplicative_subgroup p n w c ord fuel = .panic .emptyRange := by
  have hip : is_prime p 5 w = true := by
    rcases hp with rfl | rfl
    · rw [is_prime, if_neg (by norm_num), if_pos (by norm_num)]
    · rw [is_prime, if_neg (by norm_num), if_pos (by norm_num)]
  have hn0 : n ≠ 0 := by
    intro h0
    subst h0
    rw [zero_dvd_iff] at hn
    rcases hp with rfl | rfl <;> omega
  have hmod : (p - 1) % n = 0 := Nat.dvd_iff_mod_eq_zero.mp hn
  exact msub_emptyRange p n w c ord fuel hip hn0 hmod
    (by rcases hp with rfl | rfl <;> norm_num)

theorem C10_small_prime_empty_range_panic_witness :
    multiplicative_subgroup 3 2 (fun _ => 2) (fun _ => 2) (fun l => l) 1 =
      .panic .emptyRange :=
  C10_small_prime_empty_range_panic 3 2 (fun _ => 2) (fun _ => 2) (fun l => l) 1
    (Or.inr rfl) (by norm_num)

end MulSub
